import Mathlib

/-!
Verification of the schema-detection and generic-analytics core of the
call-center-performance repository.

The analytics engine (`src/lib/generic-analytics-engine.ts`) is embedded as
computable Lean functions.  JavaScript numbers are modelled exactly by `JSNum`
(a rational, NaN, or a signed infinity); dynamic metadata objects are modelled
as association lists from field id to `JSValue`.  Environment functions that
are opaque library calls in the source (`Math.sqrt`, `new Date`) are passed as
explicit function parameters, and the theorems hold for every interpretation
of them (or assume only the properties stated in the hypotheses).
-/

/-- A JavaScript number: a finite value (modelled exactly as a rational),
NaN, or a signed infinity. -/
inductive JSNum where
  | fin (q : ℚ)
  | nan
  | inf
  | ninf
deriving DecidableEq

namespace JSNum

/-- NaN test. -/
def isNaN : JSNum → Bool
  | nan => true
  | _ => false

/-- JavaScript falsiness of a number: `0` and `NaN` are falsy. -/
def falsy : JSNum → Bool
  | fin q => q = 0
  | nan => true
  | _ => false

/-- JavaScript `<` on numbers; any comparison involving NaN is false. -/
def ltB : JSNum → JSNum → Bool
  | fin a, fin b => a < b
  | fin _, inf => true
  | ninf, fin _ => true
  | ninf, inf => true
  | _, _ => false

/-- JavaScript `x || d` specialised to numbers: replaces a falsy value
(`0` or NaN) by the default. -/
def orElse (x d : JSNum) : JSNum :=
  if x.falsy then d else x

/-- JavaScript addition on numbers (`Infinity + -Infinity = NaN`). -/
def add : JSNum → JSNum → JSNum
  | nan, _ => nan
  | _, nan => nan
  | fin a, fin b => fin (a + b)
  | fin _, inf => inf
  | fin _, ninf => ninf
  | inf, fin _ => inf
  | ninf, fin _ => ninf
  | inf, inf => inf
  | ninf, ninf => ninf
  | inf, ninf => nan
  | ninf, inf => nan

/-- JavaScript division on numbers, as used for `total / count` with a
positive integer count (finite / finite with zero divisor follows the JS
sign rules; mixed infinite cases follow JS). -/
def div : JSNum → JSNum → JSNum
  | nan, _ => nan
  | _, nan => nan
  | fin a, fin b =>
      if b = 0 then (if a = 0 then nan else if 0 < a then inf else ninf)
      else fin (a / b)
  | fin _, inf => fin 0
  | fin _, ninf => fin 0
  | inf, fin b => if b < 0 then ninf else inf
  | ninf, fin b => if b < 0 then inf else ninf
  | _, _ => nan

/-- Binary `Math.min`: NaN-propagating, otherwise the order minimum. -/
def min2 (a b : JSNum) : JSNum :=
  if a.isNaN || b.isNaN then nan else if ltB b a then b else a

/-- Binary `Math.max`: NaN-propagating, otherwise the order maximum. -/
def max2 (a b : JSNum) : JSNum :=
  if a.isNaN || b.isNaN then nan else if ltB a b then b else a

end JSNum

/-- A JavaScript value as it can occur in a parsed metadata record:
a number, a string, a boolean, `null`, or `undefined`. -/
inductive JSValue where
  | vNum (q : ℚ)
  | vStr (s : String)
  | vBool (b : Bool)
  | vNull
  | vUndefined
deriving DecidableEq

namespace JSValue

/-- Is the value `null` or `undefined` (the `??` test)? -/
def nullish : JSValue → Bool
  | vNull => true
  | vUndefined => true
  | _ => false

/-- JavaScript truthiness of a value. -/
def truthy : JSValue → Bool
  | vNum q => ¬ q = 0
  | vStr s => ¬ s = ""
  | vBool b => b
  | vNull => false
  | vUndefined => false

end JSValue

/-- Lower-case a character the way `String.prototype.toLowerCase` does on
ASCII letters (the only case the verified code paths depend on). -/
def charLower (c : Char) : Char :=
  if 'A' ≤ c ∧ c ≤ 'Z' then Char.ofNat (c.toNat + 32) else c

/-- Interpret a list of decimal digit characters as a natural number. -/
def digitsVal : List Char → ℕ → ℕ
  | [], acc => acc
  | c :: cs, acc => digitsVal cs (acc * 10 + (c.toNat - '0'.toNat))

/-- Are all characters decimal digits? -/
def allDigits (cs : List Char) : Bool :=
  cs.all (fun c => c.isDigit)

/-- Parse an unsigned decimal literal (`"12"`, `"12.5"`, `".5"`, `"5."`)
into a rational; `none` when the characters are not such a literal. -/
def parseDecimal (cs : List Char) : Option ℚ :=
  let intPart := cs.takeWhile (fun c => ¬ c = '.')
  let rest := cs.dropWhile (fun c => ¬ c = '.')
  match rest with
  | [] =>
      if intPart ≠ [] ∧ allDigits intPart then some (digitsVal intPart 0) else none
  | _ :: fracPart =>
      if fracPart.all (fun c => ¬ c = '.') ∧ allDigits intPart ∧ allDigits fracPart
          ∧ (intPart ≠ [] ∨ fracPart ≠ []) then
        some ((digitsVal intPart 0 : ℚ) + (digitsVal fracPart 0 : ℚ) / (10 ^ fracPart.length))
      else none

/-- The JavaScript `Number(string)` coercion, modelled for the whitespace /
sign / plain decimal-literal cases that parsed CSV cells exercise (an empty
or all-whitespace string is `0`, any other non-literal string is NaN). -/
def strToNumber (s : String) : JSNum :=
  let cs := (s.data.dropWhile (fun c => c = ' ')).reverse.dropWhile (fun c => c = ' ') |>.reverse
  match cs with
  | [] => JSNum.fin 0
  | '-' :: rest => match parseDecimal rest with
      | some q => JSNum.fin (-q)
      | none => JSNum.nan
  | '+' :: rest => match parseDecimal rest with
      | some q => JSNum.fin q
      | none => JSNum.nan
  | _ => match parseDecimal cs with
      | some q => JSNum.fin q
      | none => JSNum.nan

/-- The JavaScript `Number(value)` coercion on metadata values. -/
def toNumber : JSValue → JSNum
  | JSValue.vNum q => JSNum.fin q
  | JSValue.vStr s => strToNumber s
  | JSValue.vBool b => JSNum.fin (if b then 1 else 0)
  | JSValue.vNull => JSNum.fin 0
  | JSValue.vUndefined => JSNum.nan

/-- Render a rational as a string.  JavaScript renders numbers in decimal
notation; for grouping keys only injectivity of the rendering matters, so
non-integers are rendered as `num/den`. -/
def ratToString (q : ℚ) : String :=
  if q.den = 1 then toString q.num else toString q.num ++ "/" ++ toString q.den

/-- The JavaScript `String(value)` coercion. -/
def jsString : JSValue → String
  | JSValue.vNum q => ratToString q
  | JSValue.vStr s => s
  | JSValue.vBool b => if b then "true" else "false"
  | JSValue.vNull => "null"
  | JSValue.vUndefined => "undefined"

/-- Property access `metadata[key]` on a dynamic object: the stored value,
or `undefined` when the key is absent. -/
def metaGet (m : List (String × JSValue)) (k : String) : JSValue :=
  match m.find? (fun p => p.1 == k) with
  | some p => p.2
  | none => JSValue.vUndefined

/-- A call record (`src/types/call.ts`), restricted to the fields the
verified operations read.  `metadata` is the dynamic per-schema mapping the
generic engine indexes with arbitrary field-id strings. -/
structure CallRecord where
  id : String
  metadata : List (String × JSValue)
  createdAt : String
  updatedAt : String
deriving DecidableEq

/-- A schema field (from `@/types/schema`, reconstructed from its uses in
the engine and the detection flow). -/
structure SchemaField where
  id : String
  name : String
  displayName : String
  aliases : List String
  semanticRole : Option String
  dataType : Option String
deriving DecidableEq

/-- A schema definition with its registry bookkeeping. -/
structure SchemaDefinition where
  id : String
  name : String
  fields : List SchemaField
  updatedAt : String
deriving DecidableEq

/-- The aggregation selector of an analytics view.  The source `switch`
treats any other string as `count` via its `default` arm, so the closed
enumeration is faithful. -/
inductive Aggregation where
  | sum
  | avg
  | min
  | max
  | count
deriving DecidableEq

/-- An analytics view (dimension field id, optional measure field id,
aggregation). -/
structure AnalyticsView where
  dimensionField : String
  measureField : Option String
  aggregation : Aggregation
deriving DecidableEq

/-- One row of `aggregateByDimension` output. -/
structure GenericAnalyticResult where
  dimension : String
  measure : JSNum
  count : ℕ
  percentage : ℚ
deriving DecidableEq

/-- `schema.fields.find(f => f.id === fieldId)`. -/
def findField (schema : SchemaDefinition) (fieldId : String) : Option SchemaField :=
  schema.fields.find? (fun f => f.id == fieldId)

/-- The grouping key of a record: `String(metadata[dimensionField] ?? 'Unknown')`. -/
def dimensionKey (view : AnalyticsView) (c : CallRecord) : String :=
  let v := metaGet c.metadata view.dimensionField
  jsString (if v.nullish then JSValue.vStr "Unknown" else v)

/-- Append a record to its group, preserving `Map` insertion order; a new
key is appended at the end, matching `Map.set` followed by in-order
iteration. -/
def insertGroup (gs : List (String × List CallRecord)) (k : String) (c : CallRecord) :
    List (String × List CallRecord) :=
  match gs with
  | [] => [(k, [c])]
  | (k', g) :: rest =>
      if k' = k then (k', g ++ [c]) :: rest else (k', g) :: insertGroup rest k c

/-- Group records by a key, in first-seen key order (`Map` semantics). -/
def groupByKey (key : CallRecord → String) (calls : List CallRecord) :
    List (String × List CallRecord) :=
  calls.foldl (fun gs c => insertGroup gs (key c) c) []

/-- `Number(call.metadata[measureFieldId])` for one record. -/
def measureNumber (mfId : String) (c : CallRecord) : JSNum :=
  toNumber (metaGet c.metadata mfId)

/-- The `sum`-aggregation total of a group:
`reduce((sum, call) => sum + (Number(metadata[mf]) || 0), 0)`. -/
def groupTotal (mfId : String) (g : List CallRecord) : JSNum :=
  g.foldl (fun s c => s.add ((measureNumber mfId c).orElse (JSNum.fin 0))) (JSNum.fin 0)

/-- The aggregated measure of one group when a measure field resolved
(the `switch (view.aggregation)` of the source). -/
def aggMeasure (agg : Aggregation) (mfId : String) (g : List CallRecord) : JSNum :=
  match agg with
  | Aggregation.sum => groupTotal mfId g
  | Aggregation.avg =>
      if 0 < g.length then (groupTotal mfId g).div (JSNum.fin g.length) else JSNum.fin 0
  | Aggregation.min =>
      (g.map (fun c => (measureNumber mfId c).orElse JSNum.inf)).foldl JSNum.min2 JSNum.inf
  | Aggregation.max =>
      (g.map (fun c => (measureNumber mfId c).orElse JSNum.ninf)).foldl JSNum.max2 JSNum.ninf
  | Aggregation.count => JSNum.fin g.length

/-- The sort relation of `results.sort((a, b) => b.measure - a.measure)`:
`a` may stay before `b` unless the comparator is positive, i.e. unless
`a.measure < b.measure` in JS order (comparisons involving NaN keep the
incoming order, as the subtraction then yields NaN). -/
def measureDescB (a b : GenericAnalyticResult) : Bool :=
  ! JSNum.ltB a.measure b.measure

/-- `GenericAnalyticsEngine.aggregateByDimension`
(`src/lib/generic-analytics-engine.ts:42`).  The `!call.metadata` guard of
the source is dead code under the declared record type (`metadata` is a
required field) and is not represented. -/
def aggregateByDimension (calls : List CallRecord) (schema : SchemaDefinition)
    (view : AnalyticsView) : List GenericAnalyticResult :=
  match findField schema view.dimensionField with
  | none => []
  | some _ =>
      let groups := groupByKey (dimensionKey view) calls
      let totalCalls := calls.length
      let results := groups.map (fun p =>
        { dimension := p.1
          measure :=
            match view.measureField with
            | some mfId =>
                if (findField schema mfId).isSome then aggMeasure view.aggregation mfId p.2
                else JSNum.fin p.2.length
            | none => JSNum.fin p.2.length
          count := p.2.length
          percentage := if 0 < totalCalls then ((p.2.length : ℚ) / totalCalls) * 100 else 0 })
      List.insertionSort (fun a b => measureDescB a b = true) results

/-- One point of `calculateTrends` output. -/
structure TrendDataPoint where
  date : String
  value : JSNum
  count : ℕ
deriving DecidableEq

/-- The timestamp-field resolution of `calculateTrends`: first field with
semantic role `timestamp`, else first field with data type `date`. -/
def findTimestampField (schema : SchemaDefinition) : Option SchemaField :=
  match schema.fields.find? (fun f => f.semanticRole == some "timestamp") with
  | some f => some f
  | none => schema.fields.find? (fun f => f.dataType == some "date")

/-- The per-record date key of `calculateTrends`:
`new Date(metadata[ts.id] || call.createdAt).toISOString().split('T')[0]`.
`dateOf` is the opaque environment conversion from a value to its UTC
calendar-date string. -/
def trendDateKey (dateOf : JSValue → String) (tsId : String) (c : CallRecord) : String :=
  let v := metaGet c.metadata tsId
  dateOf (if v.truthy then v else JSValue.vStr c.createdAt)

/-- Append a record to its date group (`Map` insertion order), reusing the
group container. -/
def insertDateGroup (gs : List (String × List CallRecord)) (k : String) (c : CallRecord) :
    List (String × List CallRecord) :=
  insertGroup gs k c

/-- `GenericAnalyticsEngine.calculateTrends`
(`src/lib/generic-analytics-engine.ts:131`), with the environment date
conversion passed explicitly.  The final sort is by date ascending via
`localeCompare`; lexicographic string order models it. -/
def calculateTrends (dateOf : JSValue → String) (calls : List CallRecord)
    (schema : SchemaDefinition) (view : AnalyticsView) : List TrendDataPoint :=
  match findTimestampField schema with
  | none => []
  | some tsField =>
      let hasMeasure :=
        match view.measureField with
        | some mfId => (findField schema mfId).isSome
        | none => false
      let dateGroups := calls.foldl
        (fun gs c => insertDateGroup gs (trendDateKey dateOf tsField.id c) c) []
      let trendData := dateGroups.map (fun p =>
        { date := p.1
          value :=
            if hasMeasure then aggMeasure view.aggregation (view.measureField.getD "") p.2
            else JSNum.fin p.2.length
          count := p.2.length })
      List.insertionSort (fun a b => (a.date ≤ b.date : Prop)) trendData

/-- Strength band of a correlation coefficient. -/
inductive Strength where
  | strong
  | moderate
  | weak
  | none
deriving DecidableEq

/-- The result record of `correlate`. -/
structure CorrelationResult where
  field1 : String
  field2 : String
  coefficient : ℚ
  strength : Strength
deriving DecidableEq

/-- `Math.round` modelled exactly: round half toward positive infinity. -/
def jsRound (q : ℚ) : ℤ :=
  ⌊q + 1/2⌋

/-- Round to 2 decimals: `Math.round(x * 100) / 100`. -/
def round2 (q : ℚ) : ℚ :=
  (jsRound (q * 100) : ℚ) / 100

/-- Round to 3 decimals: `Math.round(x * 1000) / 1000`. -/
def round3 (q : ℚ) : ℚ :=
  (jsRound (q * 1000) : ℚ) / 1000

/-- The valid numeric pairs of `correlate`: both fields coerce to a finite,
non-NaN number (`!isNaN && isFinite` on both). -/
def validPairs (calls : List CallRecord) (f1Id f2Id : String) : List (ℚ × ℚ) :=
  calls.filterMap (fun c =>
    match toNumber (metaGet c.metadata f1Id), toNumber (metaGet c.metadata f2Id) with
    | JSNum.fin a, JSNum.fin b => some (a, b)
    | _, _ => none)

/-- `n * sumProduct - sum1 * sum2` of the Pearson formula. -/
def pearsonNumerator (pairs : List (ℚ × ℚ)) : ℚ :=
  (pairs.length : ℚ) * (pairs.map (fun p => p.1 * p.2)).sum
    - (pairs.map (fun p => p.1)).sum * (pairs.map (fun p => p.2)).sum

/-- The radicand `(n*sum1Sq - sum1²) * (n*sum2Sq - sum2²)` whose square
root is the Pearson denominator. -/
def pearsonDenomSq (pairs : List (ℚ × ℚ)) : ℚ :=
  ((pairs.length : ℚ) * (pairs.map (fun p => p.1 * p.1)).sum
      - (pairs.map (fun p => p.1)).sum * (pairs.map (fun p => p.1)).sum)
    * ((pairs.length : ℚ) * (pairs.map (fun p => p.2 * p.2)).sum
      - (pairs.map (fun p => p.2)).sum * (pairs.map (fun p => p.2)).sum)

/-- The strength classification of the unrounded coefficient magnitude. -/
def strengthOf (absCoeff : ℚ) : Strength :=
  if 7/10 ≤ absCoeff then Strength.strong
  else if 2/5 ≤ absCoeff then Strength.moderate
  else if 1/5 ≤ absCoeff then Strength.weak
  else Strength.none

/-- `GenericAnalyticsEngine.correlate`
(`src/lib/generic-analytics-engine.ts:215`), with `Math.sqrt` passed as the
explicit environment parameter `sqrtFn`. -/
def correlate (sqrtFn : ℚ → ℚ) (calls : List CallRecord) (schema : SchemaDefinition)
    (f1Id f2Id : String) : Option CorrelationResult :=
  match findField schema f1Id, findField schema f2Id with
  | some field1, some field2 =>
      let pairs := validPairs calls f1Id f2Id
      if pairs.length < 3 then
        some ⟨field1.displayName, field2.displayName, 0, Strength.none⟩
      else
        let numerator := pearsonNumerator pairs
        let denominator := sqrtFn (pearsonDenomSq pairs)
        let coefficient := if denominator ≠ 0 then numerator / denominator else 0
        some ⟨field1.displayName, field2.displayName, round3 coefficient,
          strengthOf |coefficient|⟩
  | _, _ => Option.none

/-- One point of `generateScatterData` output. -/
structure ScatterPoint where
  x : ℚ
  y : ℚ
  label : Option String
deriving DecidableEq

/-- `GenericAnalyticsEngine.generateScatterData`
(`src/lib/generic-analytics-engine.ts:288`). -/
def generateScatterData (calls : List CallRecord) (schema : SchemaDefinition)
    (xFieldId yFieldId : String) : List ScatterPoint :=
  match findField schema xFieldId, findField schema yFieldId with
  | some _, some _ =>
      let labelField :=
        match schema.fields.find? (fun f => f.semanticRole == some "participant_1") with
        | some f => some f
        | none => schema.fields.find? (fun f => f.semanticRole == some "identifier")
      calls.filterMap (fun c =>
        match toNumber (metaGet c.metadata xFieldId), toNumber (metaGet c.metadata yFieldId) with
        | JSNum.fin x, JSNum.fin y =>
            some ⟨x, y, labelField.map (fun lf => jsString (metaGet c.metadata lf.id))⟩
        | _, _ => Option.none)
  | _, _ => []

/-- The finite numeric values of a field across the records:
`calls.map(c => Number(c.metadata[fieldId])).filter(v => !isNaN(v) && isFinite(v))`. -/
def numericValues (calls : List CallRecord) (fieldId : String) : List ℚ :=
  calls.filterMap (fun c =>
    match toNumber (metaGet c.metadata fieldId) with
    | JSNum.fin q => some q
    | _ => Option.none)

/-- Ascending stable sort, `values.sort((a, b) => a - b)`. -/
def sortAsc (l : List ℚ) : List ℚ :=
  List.insertionSort (fun a b => (a ≤ b : Prop)) l

/-- `GenericAnalyticsEngine.calculatePercentile`
(`src/lib/generic-analytics-engine.ts:329`).  List indexing `values[i]`
is `getD i 0`; the two guards keep every reached index in range. -/
def calculatePercentile (calls : List CallRecord) (fieldId : String)
    (percentile : ℚ) : Option ℚ :=
  let values := sortAsc (numericValues calls fieldId)
  if values.length = 0 then Option.none
  else
    let index := (percentile / 100) * ((values.length : ℚ) - 1)
    let lower := ⌊index⌋
    let upper := ⌈index⌉
    let weight := index - (lower : ℚ)
    if (values.length : ℤ) ≤ upper then some (values.getD (values.length - 1) 0)
    else if lower < 0 then some (values.getD 0 0)
    else some (values.getD lower.toNat 0 * (1 - weight) + values.getD upper.toNat 0 * weight)

/-- One bucket of `generateHistogram` output.  The source renders the two
bounds as the string `"lo.toFixed(1)-hi.toFixed(1)"`; the numeric bounds
are kept instead of the formatted text. -/
structure HistogramBucket where
  lo : ℚ
  hi : ℚ
  count : ℕ
  percentage : ℚ
deriving DecidableEq

/-- `Math.min(...values)` on a nonempty list of finite numbers (the empty
case is unreachable at every call site and yields the junk value 0). -/
def qMinList : List ℚ → ℚ
  | [] => 0
  | x :: xs => xs.foldl min x

/-- `Math.max(...values)` on a nonempty list of finite numbers. -/
def qMaxList : List ℚ → ℚ
  | [] => 0
  | x :: xs => xs.foldl max x

/-- `GenericAnalyticsEngine.generateHistogram`
(`src/lib/generic-analytics-engine.ts:355`).  With `buckets = 0` the loop
body never runs, so the division `(max-min)/0` (rationally 0, `Infinity`
in JS) is never observed. -/
def generateHistogram (calls : List CallRecord) (fieldId : String)
    (buckets : ℕ) : List HistogramBucket :=
  let values := numericValues calls fieldId
  if values.length = 0 then []
  else
    let vmin := qMinList values
    let vmax := qMaxList values
    let bucketSize := (vmax - vmin) / (buckets : ℚ)
    (List.range buckets).map (fun i : ℕ =>
      let rangeStart := vmin + (i : ℚ) * bucketSize
      let rangeEnd := if i = buckets - 1 then vmax else vmin + ((i : ℚ) + 1) * bucketSize
      let cnt := (values.filter (fun v =>
        decide (rangeStart ≤ v) &&
          (if i = buckets - 1 then decide (v ≤ rangeEnd) else decide (v < rangeEnd)))).length
      ⟨rangeStart, rangeEnd, cnt, (cnt : ℚ) / (values.length : ℚ) * 100⟩)

/-- One entry of `getTopValues` output. -/
structure TopValue where
  value : String
  count : ℕ
  percentage : ℚ
deriving DecidableEq

/-- Increment the count of a value key, preserving `Map` insertion order. -/
def bumpCount (counts : List (String × ℕ)) (k : String) : List (String × ℕ) :=
  match counts with
  | [] => [(k, 1)]
  | (k', n) :: rest =>
      if k' = k then (k', n + 1) :: rest else (k', n) :: bumpCount rest k

/-- `GenericAnalyticsEngine.getTopValues`
(`src/lib/generic-analytics-engine.ts:393`).  A missing or nullish value
is bucketed under the sentinel `"Unknown"`. -/
def getTopValues (calls : List CallRecord) (fieldId : String) (limit : ℕ) :
    List TopValue :=
  let valueCounts := calls.foldl (fun counts c =>
    let v := metaGet c.metadata fieldId
    bumpCount counts (jsString (if v.nullish then JSValue.vStr "Unknown" else v))) []
  let total := calls.length
  let results := valueCounts.map (fun p =>
    ({ value := p.1, count := p.2, percentage := (p.2 : ℚ) / (total : ℚ) * 100 } : TopValue))
  (List.insertionSort (fun a b => (b.count ≤ a.count : Prop)) results).take limit

/-- A filter criterion of `filterCalls`. -/
inductive FilterOp where
  | eq
  | gt
  | lt
  | gte
  | lte
  | contains
deriving DecidableEq

/-- Does the second character list start with the first? -/
def leadsWith : List Char → List Char → Bool
  | [], _ => true
  | _ :: _, [] => false
  | a :: as, b :: bs => a = b && leadsWith as bs

/-- Substring occurrence check (`String.prototype.includes`). -/
def occursIn : List Char → List Char → Bool
  | nee, [] => leadsWith nee []
  | nee, h :: t => leadsWith nee (h :: t) || occursIn nee t

/-- `String(v).toLowerCase()` as a character list. -/
def lowerChars (v : JSValue) : List Char :=
  (jsString v).data.map charLower

/-- Strict equality `===` on the modelled values. -/
def jsStrictEq (a b : JSValue) : Bool :=
  a = b

/-- Does one record satisfy one filter? -/
def matchesFilter (c : CallRecord) (f : String × FilterOp × JSValue) : Bool :=
  let fieldValue := metaGet c.metadata f.1
  match f.2.1 with
  | FilterOp.eq => jsStrictEq fieldValue f.2.2
  | FilterOp.gt => JSNum.ltB (toNumber f.2.2) (toNumber fieldValue)
  | FilterOp.lt => JSNum.ltB (toNumber fieldValue) (toNumber f.2.2)
  | FilterOp.gte => ! JSNum.ltB (toNumber fieldValue) (toNumber f.2.2)
      && ! (toNumber fieldValue).isNaN && ! (toNumber f.2.2).isNaN
  | FilterOp.lte => ! JSNum.ltB (toNumber f.2.2) (toNumber fieldValue)
      && ! (toNumber fieldValue).isNaN && ! (toNumber f.2.2).isNaN
  | FilterOp.contains => occursIn (lowerChars f.2.2) (lowerChars fieldValue)

/-- `GenericAnalyticsEngine.filterCalls`
(`src/lib/generic-analytics-engine.ts:422`). -/
def filterCalls (calls : List CallRecord) (filters : List (String × FilterOp × JSValue)) :
    List CallRecord :=
  calls.filter (fun c => filters.all (fun f => matchesFilter c f))

/-- The summary-statistics record of `calculateStatistics`. -/
structure Statistics where
  count : ℕ
  sum : ℚ
  mean : ℚ
  median : ℚ
  min : ℚ
  max : ℚ
  stdDev : ℚ
deriving DecidableEq

/-- `GenericAnalyticsEngine.calculateStatistics`
(`src/lib/generic-analytics-engine.ts:455`), with `Math.sqrt` passed as
the explicit environment parameter `sqrtFn`. -/
def calculateStatistics (sqrtFn : ℚ → ℚ) (calls : List CallRecord)
    (fieldId : String) : Option Statistics :=
  let values := numericValues calls fieldId
  if values.length = 0 then Option.none
  else
    let count := values.length
    let sum := values.sum
    let mean := sum / (count : ℚ)
    let sorted := sortAsc values
    let median :=
      if count % 2 = 0 then (sorted.getD (count / 2 - 1) 0 + sorted.getD (count / 2) 0) / 2
      else sorted.getD (count / 2) 0
    let variance := (values.map (fun v => (v - mean) ^ 2)).sum / (count : ℚ)
    some
      { count := count
        sum := round2 sum
        mean := round2 mean
        median := round2 median
        min := round2 (qMinList values)
        max := round2 (qMaxList values)
        stdDev := round2 (sqrtFn variance) }

/-- Normalized form of a header or field name for matching: lower-cased
with punctuation stripped (alphanumerics and spaces kept). -/
def normalizeName (s : String) : List Char :=
  (s.data.map charLower).filter (fun c => c.isAlphanum || c = ' ')

/-- Accumulator-based splitting of a character list at spaces. -/
def tokensOfAux : List Char → List Char → List (List Char)
  | [], cur => if cur = [] then [] else [cur]
  | c :: cs, cur =>
      if c = ' ' then (if cur = [] then [] else [cur]) ++ tokensOfAux cs []
      else tokensOfAux cs (cur ++ [c])

/-- Split a normalized character list into its space-separated tokens. -/
def tokensOf (cs : List Char) : List (List Char) :=
  tokensOfAux cs []

/-- Modelled from the spec: the fuzzy token-overlap tier of
`SchemaMapper.calculateMatchScore` (`@/lib/schema-mapper`, not under
`src/`): a weight proportional to the shared-token ratio, with floor 0. -/
def tokenOverlap (a b : List (List Char)) : ℚ :=
  if a.length = 0 ∨ b.length = 0 then 0
  else ((a.filter (fun t => b.contains t)).length : ℚ) / (max a.length b.length : ℚ)

/-- Modelled from the spec: the tiered weight of one header against one
candidate name — exact normalized match 1.0, substring containment 0.6,
else fuzzy token overlap. -/
def candWeight (header cand : String) : ℚ :=
  let h := normalizeName header
  let c := normalizeName cand
  if h = c then 1
  else if occursIn h c || occursIn c h then 3/5
  else tokenOverlap (tokensOf h) (tokensOf c)

/-- Modelled from the spec: one field's contribution — the best weight the
field's name, display name, or aliases achieve against any header. -/
def fieldBest (headers : List String) (f : SchemaField) : ℚ :=
  ((f.name :: f.displayName :: f.aliases).map (fun cand =>
    (headers.map (fun h => candWeight h cand)).foldl max 0)).foldl max 0

/-- Modelled from the spec: `SchemaMapper.calculateMatchScore(row, schema)`
(`@/lib/schema-mapper`, not under `src/`): average per-field contribution
× 100, clamped to [0, 100]; an empty row or a schema with no fields
yields 0.  The row enters only through its header list. -/
def calculateMatchScore (headers : List String) (schema : SchemaDefinition) : ℚ :=
  if headers.length = 0 ∨ schema.fields.length = 0 then 0
  else min 100 (((schema.fields.map (fieldBest headers)).sum / (schema.fields.length : ℚ)) * 100)

/-- One step of the `bestMatch` reduce of `detectSchema`
(`src/unnamed/part_002:534`): `current.score > best.score ? current : best`. -/
def bestMatchStep (best : Option SchemaDefinition × ℚ) (current : SchemaDefinition × ℚ) :
    Option SchemaDefinition × ℚ :=
  if best.2 < current.2 then (some current.1, current.2) else best

/-- The `bestMatch` reduce of `detectSchema` (`src/unnamed/part_002:534`),
starting from `{ schema: null, score: 0 }`. -/
def bestMatch (schemaScores : List (SchemaDefinition × ℚ)) : Option SchemaDefinition × ℚ :=
  schemaScores.foldl bestMatchStep (Option.none, 0)

/-- The winner selection of `detectSchema` (`src/unnamed/part_002:528`):
score every schema on the first row's headers, then reduce. -/
def detectBestMatch (headers : List String) (schemas : List SchemaDefinition) :
    Option SchemaDefinition × ℚ :=
  bestMatch (schemas.map (fun s => (s, calculateMatchScore headers s)))

/-- The acceptance gate of `detectSchema` (`src/unnamed/part_002:539`):
the best match is used only when its score exceeds 30. -/
def detectedSchema (headers : List String) (schemas : List SchemaDefinition) :
    Option SchemaDefinition :=
  let best := detectBestMatch headers schemas
  if 30 < best.2 then best.1 else Option.none

/-- A concrete schema field used by the example schemas. -/
def fieldAgent : SchemaField :=
  ⟨"agent", "agent", "Agent", [], Option.none, Option.none⟩

/-- Example schema, updated 2024-01-01. -/
def schemaOld : SchemaDefinition :=
  ⟨"s1", "Schema One", [fieldAgent], "2024-01-01"⟩

/-- Example schema with the same fields, updated later (2024-06-01). -/
def schemaNew : SchemaDefinition :=
  ⟨"s2", "Schema Two", [fieldAgent], "2024-06-01"⟩

/-- Dimension field of the example analytics schema. -/
def fieldDim : SchemaField :=
  ⟨"dim", "dim", "Dimension", [], Option.none, Option.none⟩

/-- Measure field of the example analytics schema. -/
def fieldM : SchemaField :=
  ⟨"m", "m", "Measure", [], Option.none, Option.none⟩

/-- Second measure field of the example analytics schema. -/
def fieldV : SchemaField :=
  ⟨"v", "v", "Value", [], Option.none, Option.none⟩

/-- Example analytics schema with a dimension and two numeric fields. -/
def exSchema : SchemaDefinition :=
  ⟨"ex", "Example", [fieldDim, fieldM, fieldV], "2024-01-01"⟩

/-- Count-aggregation view over the example dimension. -/
def exViewCount : AnalyticsView :=
  ⟨"dim", Option.none, Aggregation.count⟩

/-- Min-aggregation view over the example dimension and measure. -/
def exViewMin : AnalyticsView :=
  ⟨"dim", some "m", Aggregation.min⟩

/-- Max-aggregation view over the example dimension and measure. -/
def exViewMax : AnalyticsView :=
  ⟨"dim", some "m", Aggregation.max⟩

/-- Example record in dimension group A. -/
def callA1 : CallRecord :=
  ⟨"c1", [("dim", JSValue.vStr "A")], "2024-01-01", "2024-01-01"⟩

/-- Second example record in dimension group A. -/
def callA2 : CallRecord :=
  ⟨"c2", [("dim", JSValue.vStr "A")], "2024-01-01", "2024-01-01"⟩

/-- Example record in dimension group B. -/
def callB : CallRecord :=
  ⟨"c3", [("dim", JSValue.vStr "B")], "2024-01-01", "2024-01-01"⟩

/-- Example record whose field `v` is 0.001. -/
def callP1 : CallRecord :=
  ⟨"p1", [("v", JSValue.vNum (1/1000))], "2024-01-01", "2024-01-01"⟩

/-- Example record whose field `v` is 0.002. -/
def callP2 : CallRecord :=
  ⟨"p2", [("v", JSValue.vNum (2/1000))], "2024-01-01", "2024-01-01"⟩

/-- A model square root for instantiating the environment parameter; only
`sqrtModel 0 = 0` is relied on. -/
def sqrtModel : ℚ → ℚ :=
  fun q => q

/-- Example record with value `i` in field `h`, for the histogram scenario. -/
def histCall (i : ℕ) : CallRecord :=
  ⟨toString i, [("h", JSValue.vNum (i : ℚ))], "2024-01-01", "2024-01-01"⟩

/-- The histogram scenario input: values 1 through 10 in field `h`. -/
def histCalls : List CallRecord :=
  (List.range 10).map (fun i => histCall (i + 1))

/-- Record with measure `m` equal to 0 in group A. -/
def callMZero : CallRecord :=
  ⟨"mz", [("dim", JSValue.vStr "A"), ("m", JSValue.vNum 0)], "2024-01-01", "2024-01-01"⟩

/-- Record with non-numeric measure `m` in group A. -/
def callMBad : CallRecord :=
  ⟨"mb", [("dim", JSValue.vStr "A"), ("m", JSValue.vStr "oops")], "2024-01-01", "2024-01-01"⟩

/-- Record with measure `m` equal to 7 in group B. -/
def callMSeven : CallRecord :=
  ⟨"ms", [("dim", JSValue.vStr "B"), ("m", JSValue.vNum 7)], "2024-01-01", "2024-01-01"⟩

/-- Record with numeric fields `m` and `v` for the correlation examples. -/
def corrCall (i : ℕ) (x y : ℚ) : CallRecord :=
  ⟨toString i, [("m", JSValue.vNum x), ("v", JSValue.vNum y)], "2024-01-01", "2024-01-01"⟩
/-- The reduce step takes the current entry exactly when it strictly
beats the accumulator score. -/
theorem bestMatchStep_pos {acc : Option SchemaDefinition × ℚ} {cur : SchemaDefinition × ℚ}
    (h : acc.2 < cur.2) : bestMatchStep acc cur = (some cur.1, cur.2) := by
  unfold bestMatchStep; rw [if_pos h]

/-- The reduce step keeps the accumulator on a tie or a smaller score. -/
theorem bestMatchStep_neg {acc : Option SchemaDefinition × ℚ} {cur : SchemaDefinition × ℚ}
    (h : ¬ acc.2 < cur.2) : bestMatchStep acc cur = acc := by
  unfold bestMatchStep; rw [if_neg h]

/-- If every remaining score is at most the accumulator's, the reduce keeps
the accumulator: a later equal score never displaces the current best. -/
theorem bestMatch_foldl_stay (l : List (SchemaDefinition × ℚ)) :
    ∀ acc : Option SchemaDefinition × ℚ, (∀ p ∈ l, p.2 ≤ acc.2) →
    l.foldl bestMatchStep acc = acc := by
  induction l with
  | nil => intro acc _; rfl
  | cons p t ih =>
      intro acc h
      simp only [List.foldl_cons, bestMatchStep_neg (not_lt.mpr (h p (List.mem_cons_self _ _)))]
      exact ih acc (fun q hq => h q (List.mem_cons_of_mem _ hq))

/-- The reduce never reaches a score bound that neither the accumulator nor
any element reaches. -/
theorem bestMatch_foldl_lt (l : List (SchemaDefinition × ℚ)) (X : ℚ) :
    ∀ acc : Option SchemaDefinition × ℚ, acc.2 < X → (∀ p ∈ l, p.2 < X) →
    (l.foldl bestMatchStep acc).2 < X := by
  induction l with
  | nil => intro acc hacc _; exact hacc
  | cons p t ih =>
      intro acc hacc h
      simp only [List.foldl_cons]
      refine ih _ ?_ (fun q hq => h q (List.mem_cons_of_mem _ hq))
      by_cases hc : acc.2 < p.2
      · rw [bestMatchStep_pos hc]; exact h p (List.mem_cons_self _ _)
      · rw [bestMatchStep_neg hc]; exact hacc

/-- When one schema's score strictly dominates every other schema's score
and the accumulator, the reduce ends on that schema. -/
theorem bestMatch_unique_aux (f : SchemaDefinition → ℚ) (s : SchemaDefinition)
    (l : List SchemaDefinition) :
    ∀ acc : Option SchemaDefinition × ℚ, s ∈ l → acc.2 < f s →
    (∀ t ∈ l, t ≠ s → f t < f s) →
    (l.map (fun t => (t, f t))).foldl bestMatchStep acc = (some s, f s) := by
  induction l with
  | nil => intro _ hmem _ _; cases hmem
  | cons a t ih =>
      intro acc hmem hacc huniq
      simp only [List.map_cons, List.foldl_cons]
      by_cases ha : a = s
      · subst ha
        rw [bestMatchStep_pos hacc]
        apply bestMatch_foldl_stay
        intro p hp
        obtain ⟨u, hu, rfl⟩ := List.mem_map.mp hp
        by_cases hus : u = a
        · subst hus; exact le_refl _
        · exact le_of_lt (huniq u (List.mem_cons_of_mem _ hu) hus)
      · have hs' : s ∈ t := by
          rcases List.mem_cons.mp hmem with heq | hs'
          · exact absurd heq.symm ha
          · exact hs'
        refine ih _ hs' ?_ (fun u hu hus => huniq u (List.mem_cons_of_mem _ hu) hus)
        by_cases hc : acc.2 < (a, f a).2
        · rw [bestMatchStep_pos hc]; exact huniq a (List.mem_cons_self _ _) ha
        · rw [bestMatchStep_neg hc]; exact hacc

/-- A uniquely top-scoring schema with positive score wins the reduce, in
any collection order. -/
theorem bestMatch_unique (f : SchemaDefinition → ℚ) (s : SchemaDefinition)
    (l : List SchemaDefinition) (hmem : s ∈ l) (hpos : 0 < f s)
    (huniq : ∀ t ∈ l, t ≠ s → f t < f s) :
    bestMatch (l.map (fun t => (t, f t))) = (some s, f s) :=
  bestMatch_unique_aux f s l (Option.none, 0) hmem hpos huniq

/-- The first schema to attain the (positive) top score wins the reduce:
strictly smaller scores before it, no strictly larger score after it. -/
theorem bestMatch_first_aux (f : SchemaDefinition → ℚ) (s : SchemaDefinition)
    (pre post : List SchemaDefinition)
    (hpre : ∀ t ∈ pre, f t < f s) (hpost : ∀ t ∈ post, f t ≤ f s) (hpos : 0 < f s) :
    bestMatch ((pre ++ s :: post).map (fun t => (t, f t))) = (some s, f s) := by
  unfold bestMatch
  rw [List.map_append, List.foldl_append]
  have hacc : ((pre.map (fun t => (t, f t))).foldl bestMatchStep (Option.none, 0)).2 < f s := by
    refine bestMatch_foldl_lt _ _ _ hpos ?_
    intro p hp
    obtain ⟨u, hu, rfl⟩ := List.mem_map.mp hp
    exact hpre u hu
  simp only [List.map_cons, List.foldl_cons]
  rw [bestMatchStep_pos hacc]
  apply bestMatch_foldl_stay
  intro p hp
  obtain ⟨u, hu, rfl⟩ := List.mem_map.mp hp
  exact hpost u hu

/-- C1 (amended): detection through the `bestMatch` reduce of
`detectSchema` is a pure function, so repeated runs on identical rows and
schemas return the same result; when one schema uniquely attains the
(positive) top score, reordering the schema collection never changes the
winner; but when two schemas tie for the top score the winner is the one
EARLIEST in collection order — the schemas' `updatedAt` recency is never
consulted. -/
theorem detectBestMatch_deterministic_first_tie :
    (∀ headers schemas, detectBestMatch headers schemas = detectBestMatch headers schemas) ∧
    (∀ headers (l₁ l₂ : List SchemaDefinition), l₁.Perm l₂ →
      ∀ s, s ∈ l₁ → 0 < calculateMatchScore headers s →
      (∀ t ∈ l₁, t ≠ s → calculateMatchScore headers t < calculateMatchScore headers s) →
      (detectBestMatch headers l₁).1 = (detectBestMatch headers l₂).1) ∧
    (∀ headers (pre post : List SchemaDefinition) s,
      (∀ t ∈ pre, calculateMatchScore headers t < calculateMatchScore headers s) →
      (∀ t ∈ post, calculateMatchScore headers t ≤ calculateMatchScore headers s) →
      0 < calculateMatchScore headers s →
      (detectBestMatch headers (pre ++ s :: post)).1 = some s) := by
  refine ⟨fun _ _ => rfl, ?_, ?_⟩
  · intro headers l₁ l₂ hperm s hmem hpos huniq
    have h₁ : detectBestMatch headers l₁ = (some s, calculateMatchScore headers s) :=
      bestMatch_unique _ s l₁ hmem hpos huniq
    have h₂ : detectBestMatch headers l₂ = (some s, calculateMatchScore headers s) :=
      bestMatch_unique _ s l₂ (hperm.mem_iff.mp hmem) hpos
        (fun t ht => huniq t (hperm.mem_iff.mpr ht))
    rw [h₁, h₂]
  · intro headers pre post s hpre hpost hpos
    rw [show detectBestMatch headers (pre ++ s :: post)
          = (some s, calculateMatchScore headers s) from
      bestMatch_first_aux _ s pre post hpre hpost hpos]

/-- The spec-modelled match score of the one-header example row against the
example schemas: an exact normalized name match gives a full score of 100. -/
theorem score_agent_eval :
    calculateMatchScore ["agent"] schemaOld = 100 ∧
    calculateMatchScore ["agent"] schemaNew = 100 := by
  constructor <;>
    · simp only [calculateMatchScore, fieldBest, candWeight, schemaOld, schemaNew, fieldAgent]
      norm_num
      rfl

/-- C1 witness: the tie rule and the reordering rule instantiated on
concrete schemas. -/
theorem detectBestMatch_deterministic_first_tie_witness :
    (detectBestMatch ["agent"] ([] ++ schemaOld :: [schemaNew])).1 = some schemaOld := by
  refine detectBestMatch_deterministic_first_tie.2.2 ["agent"] [] [schemaNew] schemaOld
    (by intro t ht; cases ht) ?_ ?_
  · intro t ht
    rcases List.mem_singleton.mp ht with rfl
    rw [score_agent_eval.1, score_agent_eval.2]
  · rw [score_agent_eval.1]; norm_num

/-- C1 counterexample: two schemas whose fields are identical tie at match
score 100 on the example row; `schemaNew` is the more recently updated one
(its `updatedAt` is lexicographically later), yet the reduce returns
`schemaOld`, the schema earlier in collection order — refuting the claimed
most-recently-updated tie rule. -/
theorem detect_tie_most_recent_loses :
    calculateMatchScore ["agent"] schemaOld = calculateMatchScore ["agent"] schemaNew ∧
    schemaOld.updatedAt.data < schemaNew.updatedAt.data ∧
    schemaOld ≠ schemaNew ∧
    (detectBestMatch ["agent"] [schemaOld, schemaNew]).1 = some schemaOld := by
  refine ⟨by rw [score_agent_eval.1, score_agent_eval.2], by decide, by decide, ?_⟩
  show (bestMatch [(schemaOld, calculateMatchScore ["agent"] schemaOld),
    (schemaNew, calculateMatchScore ["agent"] schemaNew)]).1 = some schemaOld
  rw [score_agent_eval.1, score_agent_eval.2]
  unfold bestMatch
  simp only [List.foldl_cons, List.foldl_nil]
  rw [show bestMatchStep (Option.none, 0) (schemaOld, (100:ℚ)) = (some schemaOld, 100) from
    bestMatchStep_pos (by norm_num)]
  rw [show bestMatchStep (some schemaOld, (100:ℚ)) (schemaNew, (100:ℚ)) = (some schemaOld, 100)
    from bestMatchStep_neg (by norm_num)]
/-- Appending a record to its group increases the total grouped length by
exactly one. -/
theorem insertGroup_len (gs : List (String × List CallRecord)) (k : String) (c : CallRecord) :
    ((insertGroup gs k c).map (fun p => p.2.length)).sum
      = (gs.map (fun p => p.2.length)).sum + 1 := by
  induction gs with
  | nil => simp [insertGroup]
  | cons p t ih =>
      by_cases hk : p.1 = k
      · simp [insertGroup, hk]
        omega
      · simp [insertGroup, hk, ih]
        omega

/-- Folding records into groups accumulates the total grouped length. -/
theorem groupFold_len (key : CallRecord → String) (l : List CallRecord) :
    ∀ gs : List (String × List CallRecord),
    (((l.foldl (fun gs c => insertGroup gs (key c) c) gs)).map (fun p => p.2.length)).sum
      = (gs.map (fun p => p.2.length)).sum + l.length := by
  induction l with
  | nil => intro gs; simp
  | cons c t ih =>
      intro gs
      simp only [List.foldl_cons, List.length_cons]
      rw [ih, insertGroup_len]
      omega

/-- The group lengths of `groupByKey` sum to the number of records: every
record lands in exactly one group. -/
theorem groupByKey_len (key : CallRecord → String) (calls : List CallRecord) :
    ((groupByKey key calls).map (fun p => p.2.length)).sum = calls.length := by
  unfold groupByKey
  rw [groupFold_len]
  simp

/-- Inserting preserves the grouping invariant: groups are nonempty, hold
only records with their key, and hold only records of the input. -/
theorem insertGroup_wf (full : List CallRecord) (key : CallRecord → String)
    (gs : List (String × List CallRecord)) (k : String) (c : CallRecord)
    (hinv : ∀ p ∈ gs, p.2 ≠ [] ∧ ∀ d ∈ p.2, key d = p.1 ∧ d ∈ full)
    (hkey : key c = k) (hc : c ∈ full) :
    ∀ p ∈ insertGroup gs k c, p.2 ≠ [] ∧ ∀ d ∈ p.2, key d = p.1 ∧ d ∈ full := by
  induction gs with
  | nil =>
      intro p hp
      simp only [insertGroup, List.mem_singleton] at hp
      subst hp
      refine ⟨by simp, ?_⟩
      intro d hd
      simp only [List.mem_singleton] at hd
      subst hd
      exact ⟨hkey, hc⟩
  | cons q t ih =>
      intro p hp
      by_cases hq : q.1 = k
      · simp only [insertGroup, hq, if_pos, List.mem_cons] at hp
        rcases hp with hp | hp
        · subst hp
          refine ⟨by simp, ?_⟩
          intro e he
          rcases List.mem_append.mp he with he | he
          · have h2 := (hinv q (List.mem_cons_self _ _)).2 e he
            exact ⟨hq ▸ h2.1, h2.2⟩
          · simp only [List.mem_singleton] at he
            subst he
            exact ⟨hkey, hc⟩
        · exact hinv p (List.mem_cons_of_mem _ hp)
      · simp only [insertGroup, hq, if_neg, not_false_iff, List.mem_cons] at hp
        rcases hp with hp | hp
        · subst hp
          exact hinv q (List.mem_cons_self _ _)
        · exact ih (fun r hr => hinv r (List.mem_cons_of_mem _ hr)) p hp

/-- The `groupByKey` invariant: every produced group is nonempty and holds
exactly records of the input carrying the group's key. -/
theorem groupByKey_wf (key : CallRecord → String) (calls : List CallRecord) :
    ∀ p ∈ groupByKey key calls, p.2 ≠ [] ∧ ∀ d ∈ p.2, key d = p.1 ∧ d ∈ calls := by
  unfold groupByKey
  suffices h : ∀ (l : List CallRecord) (gs : List (String × List CallRecord)),
      (∀ c ∈ l, c ∈ calls) →
      (∀ p ∈ gs, p.2 ≠ [] ∧ ∀ d ∈ p.2, key d = p.1 ∧ d ∈ calls) →
      ∀ p ∈ l.foldl (fun gs c => insertGroup gs (key c) c) gs,
        p.2 ≠ [] ∧ ∀ d ∈ p.2, key d = p.1 ∧ d ∈ calls by
    refine h calls [] (fun _ hc => hc) ?_
    intro p hp
    cases hp
  intro l
  induction l with
  | nil => intro gs _ hinv; exact hinv
  | cons c t ih =>
      intro gs hmem hinv
      simp only [List.foldl_cons]
      exact ih _ (fun d hd => hmem d (List.mem_cons_of_mem _ hd))
        (insertGroup_wf calls key gs (key c) c hinv rfl (hmem c (List.mem_cons_self _ _)))

/-- A stable sort does not change the sum of any projection of the
results. -/
theorem insertionSort_map_sum {α M : Type} [AddCommMonoid M] (r : α → α → Prop)
    [DecidableRel r] (f : α → M) (l : List α) :
    ((List.insertionSort r l).map f).sum = (l.map f).sum :=
  ((List.perm_insertionSort r l).map f).sum_eq

/-- Summing the percentage form `len / T * 100` over the groups factors
through the total grouped length. -/
theorem sum_map_pct (gs : List (String × List CallRecord)) (T : ℚ) :
    (gs.map (fun p => ((p.2.length : ℚ) / T) * 100)).sum
      = (Nat.cast (gs.map (fun p => p.2.length)).sum / T) * 100 := by
  induction gs with
  | nil => simp
  | cons p t ih =>
      simp only [List.map_cons, List.sum_cons, ih]
      push_cast
      ring

/-- C2 (amended): when the dimension field resolves, the per-group counts
of `aggregateByDimension` always sum to the number of input records, and
for a NONEMPTY record list the per-group percentages sum to exactly 100
(the empty list yields no groups, so its percentage sum is 0, not 100). -/
theorem aggregateByDimension_totals (calls : List CallRecord)
    (schema : SchemaDefinition) (view : AnalyticsView)
    (hdim : (findField schema view.dimensionField).isSome = true) :
    ((aggregateByDimension calls schema view).map (fun r => r.count)).sum = calls.length ∧
    (calls ≠ [] →
      ((aggregateByDimension calls schema view).map (fun r => r.percentage)).sum = 100) := by
  obtain ⟨df, hdf⟩ := Option.isSome_iff_exists.mp hdim
  unfold aggregateByDimension
  rw [hdf]
  simp only
  constructor
  · rw [insertionSort_map_sum, List.map_map]
    show ((groupByKey (dimensionKey view) calls).map (fun p => p.2.length)).sum = calls.length
    exact groupByKey_len _ _
  · intro hne
    have hT : 0 < calls.length := List.length_pos.mpr hne
    rw [insertionSort_map_sum, List.map_map]
    show ((groupByKey (dimensionKey view) calls).map (fun p =>
      if 0 < calls.length then ((p.2.length : ℚ) / (calls.length : ℚ)) * 100 else 0)).sum = 100
    simp only [if_pos hT]
    rw [sum_map_pct, groupByKey_len]
    have hT' : ((calls.length : ℚ)) ≠ 0 := by exact_mod_cast hT.ne'
    field_simp

/-- C2 counterexample: on the EMPTY record list (dimension field still
resolvable) the result has no groups, so the percentages sum to 0, not
100 — the claim's universal quantification over every record list fails. -/
theorem aggregate_percentage_empty_counterexample :
    (findField exSchema exViewCount.dimensionField).isSome = true ∧
    aggregateByDimension [] exSchema exViewCount = [] ∧
    ((aggregateByDimension [] exSchema exViewCount).map (fun r => r.percentage)).sum = 0 ∧
    (0 : ℚ) ≠ 100 := by
  refine ⟨by decide, ?_, ?_, by norm_num⟩
  · rfl
  · rfl

/-- C2 witness: the amended totals instantiated on three concrete records
in two groups. -/
theorem aggregateByDimension_totals_witness :
    ((aggregateByDimension [callA1, callA2, callB] exSchema exViewCount).map
        (fun r => r.count)).sum = 3 ∧
    ((aggregateByDimension [callA1, callA2, callB] exSchema exViewCount).map
        (fun r => r.percentage)).sum = 100 := by
  have h := aggregateByDimension_totals [callA1, callA2, callB] exSchema exViewCount (by decide)
  exact ⟨h.1, h.2 (by simp)⟩
/-- Concrete evaluation of `aggregateByDimension` on the scenario records
`["A","A","B"]` with count aggregation: two groups, measures 2 and 1,
percentages exactly 200/3 and 100/3. -/
theorem aggregate_scenario_eval :
    aggregateByDimension [callA1, callA2, callB] exSchema exViewCount
      = [⟨"A", JSNum.fin 2, 2, 200/3⟩, ⟨"B", JSNum.fin 1, 1, 100/3⟩] := by
  simp only [aggregateByDimension, findField, exSchema, exViewCount, fieldDim, fieldM, fieldV,
    callA1, callA2, callB, groupByKey, insertGroup, dimensionKey, metaGet, jsString,
    JSValue.nullish, List.insertionSort, List.orderedInsert, measureDescB, JSNum.ltB,
    List.find?, List.foldl, List.map_cons, List.map_nil, List.length_cons, List.length_nil]
  norm_num

/-- C4 counterexample: for dimension values `["A","A","B"]` with count
aggregation the returned percentages are the unrounded rationals 200/3 and
100/3 — not 66.7 and 33.3; no 1-decimal rounding is applied. -/
theorem aggregate_percentage_unrounded_counterexample :
    ((aggregateByDimension [callA1, callA2, callB] exSchema exViewCount).map
        (fun r => r.percentage)) = [200/3, 100/3] ∧
    ((200 : ℚ)/3 ≠ 667/10) ∧ ((100 : ℚ)/3 ≠ 333/10) := by
  refine ⟨?_, by norm_num, by norm_num⟩
  rw [aggregate_scenario_eval]
  rfl

/-- C4 (amended): the percentage fields of `aggregateByDimension`,
`generateHistogram`, and `getTopValues` are the raw, UNROUNDED values
`count / total * 100`; no rounding to 1 decimal place happens anywhere. -/
theorem percentages_exact_unrounded :
    (∀ calls schema view r, r ∈ aggregateByDimension calls schema view →
      r.percentage = if 0 < calls.length
        then ((r.count : ℚ) / (calls.length : ℚ)) * 100 else 0) ∧
    (∀ calls f b bk, bk ∈ generateHistogram calls f b →
      bk.percentage = (bk.count : ℚ) / ((numericValues calls f).length : ℚ) * 100) ∧
    (∀ calls f limit tv, tv ∈ getTopValues calls f limit →
      tv.percentage = (tv.count : ℚ) / (calls.length : ℚ) * 100) := by
  refine ⟨?_, ?_, ?_⟩
  · intro calls schema view r hr
    unfold aggregateByDimension at hr
    cases hfd : findField schema view.dimensionField with
    | none => rw [hfd] at hr; cases hr
    | some df =>
        rw [hfd] at hr
        simp only [List.mem_insertionSort] at hr
        obtain ⟨p, hp, rfl⟩ := List.mem_map.mp hr
        rfl
  · intro calls f b bk hbk
    unfold generateHistogram at hbk
    by_cases hv : (numericValues calls f).length = 0
    · rw [if_pos hv] at hbk; cases hbk
    · rw [if_neg hv] at hbk
      obtain ⟨i, hi, rfl⟩ := List.mem_map.mp hbk
      rfl
  · intro calls f limit tv htv
    unfold getTopValues at htv
    have htv' := List.take_subset _ _ htv
    simp only [List.mem_insertionSort] at htv'
    obtain ⟨p, hp, rfl⟩ := List.mem_map.mp htv'
    rfl

/-- C4 witness: the unrounded-percentage law instantiated at the "A" group
of the scenario (count 2 of 3 records, percentage exactly 200/3). -/
theorem percentages_exact_unrounded_witness :
    (⟨"A", JSNum.fin 2, 2, 200/3⟩ : GenericAnalyticResult) ∈
      aggregateByDimension [callA1, callA2, callB] exSchema exViewCount ∧
    (⟨"A", JSNum.fin 2, 2, 200/3⟩ : GenericAnalyticResult).percentage
      = if 0 < ([callA1, callA2, callB] : List CallRecord).length
        then ((((⟨"A", JSNum.fin 2, 2, 200/3⟩ : GenericAnalyticResult).count : ℚ)
          / (([callA1, callA2, callB] : List CallRecord).length : ℚ)) * 100) else 0 := by
  have hmem : (⟨"A", JSNum.fin 2, 2, 200/3⟩ : GenericAnalyticResult) ∈
      aggregateByDimension [callA1, callA2, callB] exSchema exViewCount := by
    rw [aggregate_scenario_eval]
    exact List.mem_cons_self _ _
  exact ⟨hmem, percentages_exact_unrounded.1 _ _ _ _ hmem⟩
/-- C5 counterexample: over values 0.001 and 0.002, `calculatePercentile`
at 50 returns the exact interpolated median 3/2000, while
`calculateStatistics` rounds its median to 2 decimals, giving 0 — the two
are not equal. -/
theorem percentile_median_rounding_counterexample :
    calculatePercentile [callP1, callP2] "v" 50 = some (3/2000) ∧
    (calculateStatistics sqrtModel [callP1, callP2] "v").map (fun s => s.median)
      = some 0 ∧
    ((3 : ℚ)/2000 ≠ 0) := by
  refine ⟨?_, ?_, by norm_num⟩
  · simp only [calculatePercentile, sortAsc, numericValues, metaGet, callP1, callP2,
      toNumber, List.filterMap_cons, List.filterMap_nil, List.insertionSort,
      List.orderedInsert, List.find?, List.length_cons, List.length_nil]
    have hc : ⌈(1:ℚ)/2⌉ = 1 := by
      rw [Int.ceil_eq_iff]
      constructor <;> norm_num
    have hf : ⌊(1:ℚ)/2⌋ = 0 := by
      rw [Int.floor_eq_iff]
      constructor <;> norm_num
    norm_num [hc, hf, List.getD]
  · simp only [calculateStatistics, sortAsc, numericValues, metaGet, callP1, callP2,
      toNumber, List.filterMap_cons, List.filterMap_nil, List.insertionSort,
      List.orderedInsert, List.find?, List.length_cons, List.length_nil, round2, jsRound]
    norm_num [Int.floor_eq_iff, List.getD]

/-- C5 (amended): for every record list and field, percentile 50 equals the
UNROUNDED median, so rounding the percentile to 2 decimals reproduces the
`median` field of `calculateStatistics` (which rounds; both are `none`
exactly when no numeric values exist). -/
theorem percentile50_is_unrounded_median (sqrtFn : ℚ → ℚ) (calls : List CallRecord)
    (f : String) :
    (calculatePercentile calls f 50).map round2
      = (calculateStatistics sqrtFn calls f).map (fun s => s.median) := by
  unfold calculatePercentile calculateStatistics
  have hlen : (sortAsc (numericValues calls f)).length = (numericValues calls f).length :=
    List.length_insertionSort _ _
  by_cases h0 : (numericValues calls f).length = 0
  · rw [if_pos (by rw [hlen]; exact h0), if_pos h0]
    rfl
  · rw [if_neg (by rw [hlen]; exact h0), if_neg h0]
    rw [hlen]
    dsimp only
    rcases Nat.even_or_odd (numericValues calls f).length with he | ho
    · obtain ⟨m, hm⟩ := he
      have hn : (numericValues calls f).length = 2 * m := by omega
      have hm1 : 1 ≤ m := by omega
      have hidx : (50 / 100 : ℚ) * (((numericValues calls f).length : ℚ) - 1)
          = (m : ℚ) - 1/2 := by
        rw [hn]; push_cast; ring
      have hfloor : ⌊(50 / 100 : ℚ) * (((numericValues calls f).length : ℚ) - 1)⌋
          = (m : ℤ) - 1 := by
        rw [hidx, Int.floor_eq_iff]
        constructor
        · push_cast; linarith
        · push_cast; linarith
      have hceil : ⌈(50 / 100 : ℚ) * (((numericValues calls f).length : ℚ) - 1)⌉
          = (m : ℤ) := by
        rw [hidx, Int.ceil_eq_iff]
        constructor
        · push_cast; linarith
        · push_cast; linarith
      rw [hfloor, hceil]
      rw [if_neg (by rw [hn]; push_cast; omega)]
      rw [if_neg (by omega)]
      have htn : ((m : ℤ) - 1).toNat = m - 1 := by omega
      rw [htn, Int.toNat_natCast]
      simp only [Option.map_some']
      congr 1
      rw [if_pos (by omega : (numericValues calls f).length % 2 = 0)]
      have hw : (50 / 100 : ℚ) * (((numericValues calls f).length : ℚ) - 1)
          - (((m : ℤ) - 1 : ℤ) : ℚ) = 1/2 := by
        rw [hidx]; push_cast; ring
      rw [hw]
      have hi1 : (numericValues calls f).length / 2 - 1 = m - 1 := by omega
      have hi2 : (numericValues calls f).length / 2 = m := by omega
      rw [hi1, hi2]
      ring_nf
    · obtain ⟨m, hm⟩ := ho
      have hidx : (50 / 100 : ℚ) * (((numericValues calls f).length : ℚ) - 1)
          = (m : ℚ) := by
        rw [hm]; push_cast; ring
      have hfloor : ⌊(50 / 100 : ℚ) * (((numericValues calls f).length : ℚ) - 1)⌋
          = (m : ℤ) := by rw [hidx, Int.floor_natCast]
      have hceil : ⌈(50 / 100 : ℚ) * (((numericValues calls f).length : ℚ) - 1)⌉
          = (m : ℤ) := by rw [hidx, Int.ceil_natCast]
      rw [hfloor, hceil]
      rw [if_neg (by rw [hm]; push_cast; omega)]
      rw [if_neg (by omega)]
      rw [Int.toNat_natCast]
      simp only [Option.map_some']
      congr 1
      rw [if_neg (by omega : ¬ (numericValues calls f).length % 2 = 0)]
      have hw : (50 / 100 : ℚ) * (((numericValues calls f).length : ℚ) - 1)
          - (((m : ℤ) : ℤ) : ℚ) = 0 := by
        rw [hidx]; push_cast; ring
      rw [hw]
      have hi : (numericValues calls f).length / 2 = m := by omega
      rw [hi]
      ring_nf
/-- A `foldl max` result is the seed or one of the elements. -/
theorem foldl_max_mem (xs : List ℚ) : ∀ x : ℚ, xs.foldl max x = x ∨ xs.foldl max x ∈ xs := by
  induction xs with
  | nil => intro x; left; rfl
  | cons a t ih =>
      intro x
      simp only [List.foldl_cons]
      rcases ih (max x a) with h | h
      · rcases le_total x a with hxa | hxa
        · right
          rw [h, max_eq_right hxa]
          exact List.mem_cons_self _ _
        · left
          rw [h, max_eq_left hxa]
      · right; exact List.mem_cons_of_mem _ h

/-- A `foldl max` result bounds the seed and every element from above. -/
theorem foldl_max_ge (xs : List ℚ) :
    ∀ x : ℚ, x ≤ xs.foldl max x ∧ ∀ y ∈ xs, y ≤ xs.foldl max x := by
  induction xs with
  | nil => intro x; exact ⟨le_refl x, by intro y hy; cases hy⟩
  | cons a t ih =>
      intro x
      simp only [List.foldl_cons]
      refine ⟨le_trans (le_max_left x a) (ih (max x a)).1, ?_⟩
      intro y hy
      rcases List.mem_cons.mp hy with rfl | hy
      · exact le_trans (le_max_right x y) (ih (max x y)).1
      · exact (ih (max x a)).2 y hy

/-- A `foldl min` result bounds the seed and every element from below. -/
theorem foldl_min_le (xs : List ℚ) :
    ∀ x : ℚ, xs.foldl min x ≤ x ∧ ∀ y ∈ xs, xs.foldl min x ≤ y := by
  induction xs with
  | nil => intro x; exact ⟨le_refl x, by intro y hy; cases hy⟩
  | cons a t ih =>
      intro x
      simp only [List.foldl_cons]
      refine ⟨le_trans (ih (min x a)).1 (min_le_left x a), ?_⟩
      intro y hy
      rcases List.mem_cons.mp hy with rfl | hy
      · exact le_trans (ih (min x y)).1 (min_le_right x y)
      · exact (ih (min x a)).2 y hy

/-- The spread maximum is an element of a nonempty list. -/
theorem qMaxList_mem (l : List ℚ) (h : l ≠ []) : qMaxList l ∈ l := by
  match l with
  | [] => exact absurd rfl h
  | x :: xs =>
      show List.foldl max x xs ∈ x :: xs
      rcases foldl_max_mem xs x with h' | h'
      · rw [h']; exact List.mem_cons_self _ _
      · exact List.mem_cons_of_mem _ h'

/-- Every element is at most the spread maximum. -/
theorem qMaxList_ge (l : List ℚ) : ∀ y ∈ l, y ≤ qMaxList l := by
  match l with
  | [] => intro y hy; cases hy
  | x :: xs =>
      intro y hy
      show y ≤ List.foldl max x xs
      rcases List.mem_cons.mp hy with rfl | hy
      · exact (foldl_max_ge xs y).1
      · exact (foldl_max_ge xs x).2 y hy

/-- Every element is at least the spread minimum. -/
theorem qMinList_le (l : List ℚ) : ∀ y ∈ l, qMinList l ≤ y := by
  match l with
  | [] => intro y hy; cases hy
  | x :: xs =>
      intro y hy
      show List.foldl min x xs ≤ y
      rcases List.mem_cons.mp hy with rfl | hy
      · exact (foldl_min_le xs y).1
      · exact (foldl_min_le xs x).2 y hy

/-- The numeric values of the histogram scenario records are 1 through 10. -/
theorem numericValues_hist_eval :
    numericValues histCalls "h" = [1, 2, 3, 4, 5, 6, 7, 8, 9, 10] := by
  simp only [numericValues, histCalls, histCall, metaGet, toNumber, List.range_succ,
    List.range_zero, List.map_append, List.map_cons, List.map_nil, List.filterMap_append,
    List.filterMap_cons, List.filterMap_nil, List.find?, List.nil_append, List.cons_append]
  norm_num
set_option maxHeartbeats 2000000 in
/-- Concrete evaluation of the histogram scenario: values 1..10 in 5
buckets give equal-width buckets of count 2, the last spanning
[41/5, 10] inclusively. -/
theorem histogram_scenario_eval :
    generateHistogram histCalls "h" 5
      = [⟨1, 14/5, 2, 20⟩, ⟨14/5, 23/5, 2, 20⟩, ⟨23/5, 32/5, 2, 20⟩,
         ⟨32/5, 41/5, 2, 20⟩, ⟨41/5, 10, 2, 20⟩] := by
  unfold generateHistogram
  rw [numericValues_hist_eval]
  dsimp only
  have hmin : qMinList [1, 2, 3, 4, 5, 6, 7, 8, 9, 10] = (1 : ℚ) := by
    norm_num [qMinList, List.foldl_cons, List.foldl_nil, min_def]
  have hmax : qMaxList [1, 2, 3, 4, 5, 6, 7, 8, 9, 10] = (10 : ℚ) := by
    norm_num [qMaxList, List.foldl_cons, List.foldl_nil, max_def]
  rw [hmin, hmax]
  norm_num [List.range_succ, List.range_zero, List.map_append, List.map_cons, List.map_nil,
    List.filter_cons, List.filter_nil]

/-- C6: `generateHistogram` produces `buckets` buckets of equal width; the
final bucket is inclusive at both ends, so the maximum value always lies
inside the final bucket and is counted there; in particular over the
values 1 through 10 with 5 buckets it returns 5 buckets of count 2 each,
with 10 counted in the last bucket [41/5, 10]. -/
theorem histogram_equal_width_max_counted :
    (∀ calls f b, 1 ≤ b → numericValues calls f ≠ [] →
      (generateHistogram calls f b).length = b ∧
      (∀ bk ∈ generateHistogram calls f b,
        bk.hi - bk.lo
          = (qMaxList (numericValues calls f) - qMinList (numericValues calls f)) / (b : ℚ)) ∧
      (∃ bk, (generateHistogram calls f b).getLast? = some bk ∧
        bk.lo ≤ qMaxList (numericValues calls f) ∧
        qMaxList (numericValues calls f) ≤ bk.hi ∧ 1 ≤ bk.count)) ∧
    ((generateHistogram histCalls "h" 5).map (fun bk => bk.count) = [2, 2, 2, 2, 2] ∧
      (generateHistogram histCalls "h" 5).getLast? = some ⟨41/5, 10, 2, 20⟩) := by
  constructor
  · intro calls f b hb hne
    have hv0 : ¬ (numericValues calls f).length = 0 := by
      intro h
      exact hne (List.length_eq_zero.mp h)
    have hminmax : qMinList (numericValues calls f) ≤ qMaxList (numericValues calls f) :=
      qMinList_le _ _ (qMaxList_mem _ hne)
    have hbQ : ((b : ℚ)) ≠ 0 := by
      have : (0 : ℚ) < b := by exact_mod_cast hb
      linarith
    have hsize : 0 ≤ (qMaxList (numericValues calls f) - qMinList (numericValues calls f))
        / (b : ℚ) := by
      apply div_nonneg (by linarith)
      positivity
    unfold generateHistogram
    rw [if_neg hv0]
    dsimp only
    refine ⟨by simp, ?_, ?_⟩
    · intro bk hbk
      obtain ⟨i, hi, rfl⟩ := List.mem_map.mp hbk
      have hib := List.mem_range.mp hi
      by_cases hlast : i = b - 1
      · show (if i = b - 1 then qMaxList (numericValues calls f)
            else _ + ((i : ℚ) + 1) * _) - _ = _
        rw [if_pos hlast, hlast]
        have hcast : (((b - 1 : ℕ)) : ℚ) = (b : ℚ) - 1 := by
          push_cast [hb]
          ring
        rw [hcast]
        field_simp
        ring
      · show (if i = b - 1 then qMaxList (numericValues calls f)
            else _ + ((i : ℚ) + 1) * _) - _ = _
        rw [if_neg hlast]
        ring
    · obtain ⟨n, rfl⟩ : ∃ n, b = n + 1 := ⟨b - 1, by omega⟩
      rw [List.range_succ, List.map_append, List.map_cons, List.map_nil, List.getLast?_concat]
      have hn1 : n = (n + 1) - 1 := by omega
      have hlo : qMinList (numericValues calls f) + (n : ℚ)
            * ((qMaxList (numericValues calls f) - qMinList (numericValues calls f)) / ((n + 1 : ℕ) : ℚ))
          ≤ qMaxList (numericValues calls f) := by
        have htop : qMinList (numericValues calls f) + ((n + 1 : ℕ) : ℚ)
              * ((qMaxList (numericValues calls f) - qMinList (numericValues calls f)) / ((n + 1 : ℕ) : ℚ))
            = qMaxList (numericValues calls f) := by
          field_simp
        have hstep : (n : ℚ)
              * ((qMaxList (numericValues calls f) - qMinList (numericValues calls f)) / ((n + 1 : ℕ) : ℚ))
            ≤ ((n + 1 : ℕ) : ℚ)
              * ((qMaxList (numericValues calls f) - qMinList (numericValues calls f)) / ((n + 1 : ℕ) : ℚ)) := by
          apply mul_le_mul_of_nonneg_right _ hsize
          push_cast
          linarith
        linarith
      refine ⟨_, rfl, ?_, ?_, ?_⟩
      · show qMinList (numericValues calls f) + (n : ℚ) * _ ≤ _
        exact hlo
      · show qMaxList (numericValues calls f) ≤ (if n = (n + 1) - 1 then _ else _)
        rw [if_pos (show n = (n + 1) - 1 by omega)]
      · apply List.length_pos.mpr
        apply List.ne_nil_of_mem (a := qMaxList (numericValues calls f))
        rw [List.mem_filter]
        refine ⟨qMaxList_mem _ hne, ?_⟩
        simp only [if_pos (show n = n + 1 - 1 by omega)]
        simp only [Bool.and_eq_true, decide_eq_true_eq]
        exact ⟨hlo, le_refl _⟩
  · rw [histogram_scenario_eval]
    exact ⟨rfl, rfl⟩

/-- C6 witness: the histogram law instantiated at the scenario input
(1..10, 5 buckets): 5 buckets, equal widths, and the maximum 10 counted
in the last bucket. -/
theorem histogram_equal_width_max_counted_witness :
    (generateHistogram histCalls "h" 5).length = 5 ∧
    (∃ bk, (generateHistogram histCalls "h" 5).getLast? = some bk ∧
      bk.lo ≤ qMaxList (numericValues histCalls "h") ∧
      qMaxList (numericValues histCalls "h") ≤ bk.hi ∧ 1 ≤ bk.count) := by
  have hne : numericValues histCalls "h" ≠ [] := by
    rw [numericValues_hist_eval]
    simp
  have h := histogram_equal_width_max_counted.1 histCalls "h" 5 (by norm_num) hne
  exact ⟨h.1, h.2.2⟩
/-- Summing the first components of pairs that all share the value `c`. -/
theorem sum_map_fst_const (l : List (ℚ × ℚ)) (c : ℚ) (h : ∀ p ∈ l, p.1 = c) :
    (l.map (fun p => p.1)).sum = l.length * c := by
  induction l with
  | nil => simp
  | cons p t ih =>
      simp only [List.map_cons, List.sum_cons, List.length_cons,
        ih (fun q hq => h q (List.mem_cons_of_mem _ hq))]
      rw [h p (List.mem_cons_self _ _)]
      push_cast
      ring

/-- Summing the squared first components of pairs that all share the
value `c`. -/
theorem sum_map_fst_sq_const (l : List (ℚ × ℚ)) (c : ℚ) (h : ∀ p ∈ l, p.1 = c) :
    (l.map (fun p => p.1 * p.1)).sum = l.length * (c * c) := by
  induction l with
  | nil => simp
  | cons p t ih =>
      simp only [List.map_cons, List.sum_cons, List.length_cons,
        ih (fun q hq => h q (List.mem_cons_of_mem _ hq))]
      rw [h p (List.mem_cons_self _ _)]
      push_cast
      ring
/-- Swapping the two field ids swaps each valid pair. -/
theorem validPairs_swap (calls : List CallRecord) (f1Id f2Id : String) :
    validPairs calls f2Id f1Id = (validPairs calls f1Id f2Id).map Prod.swap := by
  unfold validPairs
  induction calls with
  | nil => rfl
  | cons c t ih =>
      simp only [List.filterMap_cons]
      cases hA : toNumber (metaGet c.metadata f1Id) <;>
        cases hB : toNumber (metaGet c.metadata f2Id) <;>
          simp [hA, hB, ih, Prod.swap]

/-- The Pearson numerator is symmetric under swapping the pairs. -/
theorem pearsonNumerator_swap (pairs : List (ℚ × ℚ)) :
    pearsonNumerator (pairs.map Prod.swap) = pearsonNumerator pairs := by
  unfold pearsonNumerator
  rw [List.length_map, List.map_map, List.map_map, List.map_map]
  have h1 : pairs.map ((fun p : ℚ × ℚ => p.1 * p.2) ∘ Prod.swap)
      = pairs.map (fun p : ℚ × ℚ => p.1 * p.2) :=
    List.map_congr_left (fun p _ => mul_comm p.2 p.1)
  have h2 : pairs.map ((fun p : ℚ × ℚ => p.1) ∘ Prod.swap)
      = pairs.map (fun p : ℚ × ℚ => p.2) := rfl
  have h3 : pairs.map ((fun p : ℚ × ℚ => p.2) ∘ Prod.swap)
      = pairs.map (fun p : ℚ × ℚ => p.1) := rfl
  rw [h1, h2, h3]
  ring

/-- The Pearson denominator radicand is symmetric under swapping the
pairs. -/
theorem pearsonDenomSq_swap (pairs : List (ℚ × ℚ)) :
    pearsonDenomSq (pairs.map Prod.swap) = pearsonDenomSq pairs := by
  unfold pearsonDenomSq
  rw [List.length_map, List.map_map, List.map_map, List.map_map, List.map_map]
  have h1 : pairs.map ((fun p : ℚ × ℚ => p.1 * p.1) ∘ Prod.swap)
      = pairs.map (fun p : ℚ × ℚ => p.2 * p.2) := rfl
  have h2 : pairs.map ((fun p : ℚ × ℚ => p.2 * p.2) ∘ Prod.swap)
      = pairs.map (fun p : ℚ × ℚ => p.1 * p.1) := rfl
  have h3 : pairs.map ((fun p : ℚ × ℚ => p.1) ∘ Prod.swap)
      = pairs.map (fun p : ℚ × ℚ => p.2) := rfl
  have h4 : pairs.map ((fun p : ℚ × ℚ => p.2) ∘ Prod.swap)
      = pairs.map (fun p : ℚ × ℚ => p.1) := rfl
  rw [h1, h2, h3, h4]
  ring

/-- C7: for every record list and pair of schema-resolvable fields with
fewer than 3 valid numeric pairs, `correlate` returns coefficient 0 and
strength none rather than failing, for every interpretation of
`Math.sqrt`. -/
theorem correlate_too_few_pairs (sqrtFn : ℚ → ℚ) (calls : List CallRecord)
    (schema : SchemaDefinition) (f1Id f2Id : String) (fld1 fld2 : SchemaField)
    (h1 : findField schema f1Id = some fld1) (h2 : findField schema f2Id = some fld2)
    (hlt : (validPairs calls f1Id f2Id).length < 3) :
    correlate sqrtFn calls schema f1Id f2Id
      = some ⟨fld1.displayName, fld2.displayName, 0, Strength.none⟩ := by
  unfold correlate
  rw [h1, h2]
  simp only [if_pos hlt]

/-- C7 witness: two valid pairs on the example schema give the degenerate
coefficient-0, strength-none result. -/
theorem correlate_too_few_pairs_witness :
    correlate sqrtModel [corrCall 1 1 2, corrCall 2 2 3] exSchema "m" "v"
      = some ⟨"Measure", "Value", 0, Strength.none⟩ := by
  have hlt : (validPairs [corrCall 1 1 2, corrCall 2 2 3] "m" "v").length < 3 := by
    simp [validPairs, corrCall, metaGet, toNumber]
  exact correlate_too_few_pairs sqrtModel _ exSchema "m" "v" fieldM fieldV
    (by decide) (by decide) hlt

/-- C8: `correlate(A,B)` and `correlate(B,A)` return identical coefficients
and identical strength bands (hence equal magnitude and sign), for every
interpretation of `Math.sqrt`; unresolvable fields yield `none` in both
directions. -/
theorem correlate_symmetric (sqrtFn : ℚ → ℚ) (calls : List CallRecord)
    (schema : SchemaDefinition) (f1Id f2Id : String) :
    (correlate sqrtFn calls schema f1Id f2Id).map (fun r => (r.coefficient, r.strength))
      = (correlate sqrtFn calls schema f2Id f1Id).map (fun r => (r.coefficient, r.strength)) := by
  unfold correlate
  cases h1 : findField schema f1Id with
  | none =>
      cases h2 : findField schema f2Id with
      | none => rfl
      | some fld2 => rfl
  | some fld1 =>
      cases h2 : findField schema f2Id with
      | none => rfl
      | some fld2 =>
          simp only
          rw [validPairs_swap calls f1Id f2Id]
          simp only [List.length_map, pearsonNumerator_swap, pearsonDenomSq_swap]
          by_cases hlt : (validPairs calls f1Id f2Id).length < 3
          · simp only [if_pos hlt]
            rfl
          · simp only [if_neg hlt]
            rfl

/-- C9: whenever the square root of the Pearson radicand is 0, `correlate`
(on resolvable fields) returns coefficient exactly 0 and strength none;
and a constant first field makes the radicand exactly 0, so with any
square root sending 0 to 0 the coefficient is 0. -/
theorem correlate_zero_denominator (sqrtFn : ℚ → ℚ) (calls : List CallRecord)
    (schema : SchemaDefinition) (f1Id f2Id : String) (fld1 fld2 : SchemaField)
    (h1 : findField schema f1Id = some fld1) (h2 : findField schema f2Id = some fld2) :
    (sqrtFn (pearsonDenomSq (validPairs calls f1Id f2Id)) = 0 →
      correlate sqrtFn calls schema f1Id f2Id
        = some ⟨fld1.displayName, fld2.displayName, 0, Strength.none⟩) ∧
    (∀ c : ℚ, (∀ p ∈ validPairs calls f1Id f2Id, p.1 = c) →
      pearsonDenomSq (validPairs calls f1Id f2Id) = 0) := by
  constructor
  · intro hz
    unfold correlate
    rw [h1, h2]
    by_cases hlt : (validPairs calls f1Id f2Id).length < 3
    · simp only [if_pos hlt]
    · simp only [if_neg hlt]
      rw [hz]
      rw [if_neg (by norm_num)]
      have hfl : (⌊(0 : ℚ) * 1000 + 1/2⌋ : ℤ) = 0 := by
        rw [Int.floor_eq_iff]
        constructor <;> norm_num
      have hr : round3 0 = 0 := by
        unfold round3 jsRound
        rw [hfl]
        norm_num
      have hs : strengthOf |0| = Strength.none := by
        unfold strengthOf
        rw [abs_zero, if_neg (by norm_num), if_neg (by norm_num), if_neg (by norm_num)]
      rw [hr, hs]
  · intro c hc
    have hD1 : ((validPairs calls f1Id f2Id).length : ℚ)
          * ((validPairs calls f1Id f2Id).map (fun p => p.1 * p.1)).sum
        - ((validPairs calls f1Id f2Id).map (fun p => p.1)).sum
          * ((validPairs calls f1Id f2Id).map (fun p => p.1)).sum = 0 := by
      rw [sum_map_fst_const _ c hc, sum_map_fst_sq_const _ c hc]
      ring
    unfold pearsonDenomSq
    rw [hD1, zero_mul]

/-- The valid pairs of the constant-field example records. -/
theorem validPairs_const_eval :
    validPairs [corrCall 1 5 1, corrCall 2 5 2, corrCall 3 5 3] "m" "v"
      = [(5, 1), (5, 2), (5, 3)] := by
  simp [validPairs, corrCall, metaGet, toNumber]

/-- C9 witness: with the first field constant (value 5 across three
records) the radicand is 0, and with a square root sending 0 to 0 the
returned coefficient is exactly 0 with strength none. -/
theorem correlate_zero_denominator_witness :
    pearsonDenomSq (validPairs [corrCall 1 5 1, corrCall 2 5 2, corrCall 3 5 3] "m" "v")
        = 0 ∧
    correlate sqrtModel [corrCall 1 5 1, corrCall 2 5 2, corrCall 3 5 3] exSchema "m" "v"
      = some ⟨"Measure", "Value", 0, Strength.none⟩ := by
  have h := correlate_zero_denominator sqrtModel
    [corrCall 1 5 1, corrCall 2 5 2, corrCall 3 5 3] exSchema "m" "v" fieldM fieldV
    (by decide) (by decide)
  have hD : pearsonDenomSq
      (validPairs [corrCall 1 5 1, corrCall 2 5 2, corrCall 3 5 3] "m" "v") = 0 := by
    apply h.2 5
    intro p hp
    rw [validPairs_const_eval] at hp
    simp only [List.mem_cons, List.not_mem_nil, or_false] at hp
    rcases hp with rfl | rfl | rfl <;> rfl
  exact ⟨hD, h.1 (by rw [hD]; rfl)⟩
/-- Folding records whose key is always `"Unknown"` into the counts list
accumulates a single `"Unknown"` entry. -/
theorem bumpCount_unknown_fold (l : List CallRecord) (key : CallRecord → String)
    (hk : ∀ c ∈ l, key c = "Unknown") :
    ∀ n : ℕ, l.foldl (fun counts c => bumpCount counts (key c)) [("Unknown", n)]
      = [("Unknown", n + l.length)] := by
  induction l with
  | nil => intro n; simp
  | cons c t ih =>
      intro n
      simp only [List.foldl_cons]
      rw [show bumpCount [("Unknown", n)] (key c) = [("Unknown", n + 1)] by
        rw [hk c (List.mem_cons_self _ _)]
        simp [bumpCount]]
      rw [ih (fun d hd => hk d (List.mem_cons_of_mem _ hd)) (n + 1)]
      simp only [List.length_cons]
      rw [show n + 1 + t.length = n + (t.length + 1) from by omega]

/-- C3 (amended): every analytics operation is a total function that
degrades instead of raising: `aggregateByDimension` returns `[]` when the
dimension field does not resolve; `calculateTrends` returns `[]` when no
timestamp field resolves; `correlate` returns null and
`generateScatterData` returns `[]` when either field does not resolve;
`calculatePercentile`, `generateHistogram` and `calculateStatistics`
return null / `[]` / null when no numeric value exists; but `getTopValues`
buckets missing values under the sentinel `"Unknown"` (a NONEMPTY result
of total count), and `filterCalls` keeps exactly the records passing every
filter (missing values simply fail numeric comparisons). -/
theorem analytics_degrade_no_throw :
    (∀ calls schema view, findField schema view.dimensionField = Option.none →
      aggregateByDimension calls schema view = []) ∧
    (∀ dateOf calls schema view, findTimestampField schema = Option.none →
      calculateTrends dateOf calls schema view = []) ∧
    (∀ sqrtFn calls schema f1 f2,
      (findField schema f1 = Option.none ∨ findField schema f2 = Option.none) →
      correlate sqrtFn calls schema f1 f2 = Option.none) ∧
    (∀ calls schema fx fy,
      (findField schema fx = Option.none ∨ findField schema fy = Option.none) →
      generateScatterData calls schema fx fy = []) ∧
    (∀ calls f p, numericValues calls f = [] → calculatePercentile calls f p = Option.none) ∧
    (∀ calls f b, numericValues calls f = [] → generateHistogram calls f b = []) ∧
    (∀ sqrtFn calls f, numericValues calls f = [] →
      calculateStatistics sqrtFn calls f = Option.none) ∧
    (∀ calls f limit, calls ≠ [] → 1 ≤ limit →
      (∀ c ∈ calls, (metaGet c.metadata f).nullish = true) →
      getTopValues calls f limit = [⟨"Unknown", calls.length, 100⟩]) ∧
    (∀ calls filters c, c ∈ filterCalls calls filters →
      ∀ fd ∈ filters, matchesFilter c fd = true) := by
  refine ⟨?_, ?_, ?_, ?_, ?_, ?_, ?_, ?_, ?_⟩
  · intro calls schema view h
    unfold aggregateByDimension
    rw [h]
  · intro dateOf calls schema view h
    unfold calculateTrends
    rw [h]
  · intro sqrtFn calls schema f1 f2 h
    unfold correlate
    rcases h with h | h
    · rw [h]
    · rw [h]
      cases findField schema f1 <;> rfl
  · intro calls schema fx fy h
    unfold generateScatterData
    rcases h with h | h
    · rw [h]
    · rw [h]
      cases findField schema fx <;> rfl
  · intro calls f p h
    unfold calculatePercentile
    rw [if_pos (by rw [sortAsc, List.length_insertionSort, h]; rfl)]
  · intro calls f b h
    unfold generateHistogram
    rw [if_pos (by rw [h]; rfl)]
  · intro sqrtFn calls f h
    unfold calculateStatistics
    rw [if_pos (by rw [h]; rfl)]
  · intro calls f limit hne hlim hk
    unfold getTopValues
    obtain ⟨c, rest, rfl⟩ : ∃ c rest, calls = c :: rest := by
      cases calls with
      | nil => exact absurd rfl hne
      | cons c rest => exact ⟨c, rest, rfl⟩
    have hkey : ∀ d ∈ c :: rest,
        jsString (if (metaGet d.metadata f).nullish then JSValue.vStr "Unknown"
          else metaGet d.metadata f) = "Unknown" := by
      intro d hd
      rw [if_pos (hk d hd)]
      rfl
    simp only [List.foldl_cons]
    rw [show bumpCount []
        (jsString (if (metaGet c.metadata f).nullish then JSValue.vStr "Unknown"
          else metaGet c.metadata f)) = [("Unknown", 1)] by
      rw [hkey c (List.mem_cons_self _ _)]
      rfl]
    rw [bumpCount_unknown_fold rest _
      (fun d hd => hkey d (List.mem_cons_of_mem _ hd)) 1]
    simp only [List.map_cons, List.map_nil, List.insertionSort, List.orderedInsert]
    obtain ⟨l, rfl⟩ : ∃ l, limit = l + 1 := ⟨limit - 1, by omega⟩
    simp only [List.take_succ_cons, List.take_nil]
    simp only [List.length_cons]
    rw [show 1 + rest.length = rest.length + 1 from by omega]
    have hne0 : ((rest.length + 1 : ℕ) : ℚ) ≠ 0 := by
      exact_mod_cast Nat.succ_ne_zero rest.length
    rw [div_self hne0, one_mul]
  · intro calls filters c hc
    unfold filterCalls at hc
    have h2 := (List.mem_filter.mp hc).2
    intro fd hfd
    exact List.all_eq_true.mp h2 fd hfd

/-- C3 counterexample: `getTopValues` on a field absent from the record
metadata returns the nonempty `"Unknown"` bucket covering every record —
not an empty or zero result. -/
theorem getTopValues_missing_field_counterexample :
    getTopValues [callA1] "missing" 10 = [⟨"Unknown", 1, 100⟩] ∧
    ([⟨"Unknown", 1, 100⟩] : List TopValue) ≠ [] ∧
    (⟨"Unknown", 1, 100⟩ : TopValue).count ≠ 0 := by
  refine ⟨?_, by simp, by simp⟩
  norm_num [getTopValues, callA1, metaGet, bumpCount, jsString, JSValue.nullish,
    List.insertionSort, List.orderedInsert, List.find?, List.foldl]
  decide

/-- C3 witness: the degrade rules instantiated at concrete inputs — an
unresolvable dimension / correlation / scatter field, a timestamp-free
schema, a field with no numeric values, and the Unknown bucket of
`getTopValues`. -/
theorem analytics_degrade_no_throw_witness :
    aggregateByDimension [callA1] exSchema ⟨"nodim", Option.none, Aggregation.count⟩ = [] ∧
    calculateTrends (fun _ => "1970-01-01") [callA1] exSchema exViewCount = [] ∧
    correlate sqrtModel [callA1] exSchema "nodim" "v" = Option.none ∧
    generateScatterData [callA1] exSchema "nodim" "v" = [] ∧
    calculatePercentile [callA1] "missing" 50 = Option.none ∧
    generateHistogram [callA1] "missing" 10 = [] ∧
    calculateStatistics sqrtModel [callA1] "missing" = Option.none ∧
    getTopValues [callA1] "missing" 10 = [⟨"Unknown", 1, 100⟩] := by
  have hnum : numericValues [callA1] "missing" = [] := rfl
  refine ⟨analytics_degrade_no_throw.1 _ _ _ (by decide),
    analytics_degrade_no_throw.2.1 _ _ _ _ (by decide),
    analytics_degrade_no_throw.2.2.1 sqrtModel _ _ _ _ (Or.inl (by decide)),
    analytics_degrade_no_throw.2.2.2.1 _ _ _ _ (Or.inl (by decide)),
    analytics_degrade_no_throw.2.2.2.2.1 _ _ _ hnum,
    analytics_degrade_no_throw.2.2.2.2.2.1 _ _ _ hnum,
    analytics_degrade_no_throw.2.2.2.2.2.2.1 sqrtModel _ _ hnum,
    ?_⟩
  have h := analytics_degrade_no_throw.2.2.2.2.2.2.2.1 [callA1] "missing" 10
    (by simp) (by norm_num) ?_
  · simpa using h
  · intro c hc
    simp only [List.mem_singleton] at hc
    subst hc
    decide
/-- One step of `Math.min` yields NaN, the accumulator, or the element. -/
theorem min2_cases (a b : JSNum) :
    JSNum.min2 a b = JSNum.nan ∨ JSNum.min2 a b = a ∨ JSNum.min2 a b = b := by
  unfold JSNum.min2
  by_cases h : (a.isNaN || b.isNaN) = true
  · rw [if_pos h]
    left; rfl
  · rw [if_neg h]
    by_cases h2 : JSNum.ltB b a = true
    · rw [if_pos h2]
      right; right; rfl
    · rw [if_neg h2]
      right; left; rfl

/-- One step of `Math.max` yields NaN, the accumulator, or the element. -/
theorem max2_cases (a b : JSNum) :
    JSNum.max2 a b = JSNum.nan ∨ JSNum.max2 a b = a ∨ JSNum.max2 a b = b := by
  unfold JSNum.max2
  by_cases h : (a.isNaN || b.isNaN) = true
  · rw [if_pos h]
    left; rfl
  · rw [if_neg h]
    by_cases h2 : JSNum.ltB a b = true
    · rw [if_pos h2]
      right; right; rfl
    · rw [if_neg h2]
      right; left; rfl

/-- A `Math.min` spread yields NaN, the seed, or one of the elements. -/
theorem foldl_min2_mem (l : List JSNum) :
    ∀ acc, l.foldl JSNum.min2 acc = JSNum.nan ∨ l.foldl JSNum.min2 acc = acc
      ∨ l.foldl JSNum.min2 acc ∈ l := by
  induction l with
  | nil => intro acc; right; left; rfl
  | cons a t ih =>
      intro acc
      simp only [List.foldl_cons]
      rcases ih (JSNum.min2 acc a) with h | h | h
      · left; exact h
      · rcases min2_cases acc a with h2 | h2 | h2
        · left; rw [h]; exact h2
        · right; left; rw [h]; exact h2
        · right; right; rw [h, h2]; exact List.mem_cons_self _ _
      · right; right; exact List.mem_cons_of_mem _ h

/-- A `Math.max` spread yields NaN, the seed, or one of the elements. -/
theorem foldl_max2_mem (l : List JSNum) :
    ∀ acc, l.foldl JSNum.max2 acc = JSNum.nan ∨ l.foldl JSNum.max2 acc = acc
      ∨ l.foldl JSNum.max2 acc ∈ l := by
  induction l with
  | nil => intro acc; right; left; rfl
  | cons a t ih =>
      intro acc
      simp only [List.foldl_cons]
      rcases ih (JSNum.max2 acc a) with h | h | h
      · left; exact h
      · rcases max2_cases acc a with h2 | h2 | h2
        · left; rw [h]; exact h2
        · right; left; rw [h]; exact h2
        · right; right; rw [h, h2]; exact List.mem_cons_self _ _
      · right; right; exact List.mem_cons_of_mem _ h

/-- A `Math.min` spread over all-Infinity inputs is Infinity. -/
theorem foldl_min2_inf :
    ∀ l : List JSNum, (∀ x ∈ l, x = JSNum.inf) →
      l.foldl JSNum.min2 JSNum.inf = JSNum.inf := by
  intro l
  induction l with
  | nil => intro _; rfl
  | cons a t ih =>
      intro h
      simp only [List.foldl_cons]
      rw [h a (List.mem_cons_self _ _)]
      rw [show JSNum.min2 JSNum.inf JSNum.inf = JSNum.inf from rfl]
      exact ih (fun x hx => h x (List.mem_cons_of_mem _ hx))

/-- A `Math.max` spread over all-negative-Infinity inputs is negative
Infinity. -/
theorem foldl_max2_ninf :
    ∀ l : List JSNum, (∀ x ∈ l, x = JSNum.ninf) →
      l.foldl JSNum.max2 JSNum.ninf = JSNum.ninf := by
  intro l
  induction l with
  | nil => intro _; rfl
  | cons a t ih =>
      intro h
      simp only [List.foldl_cons]
      rw [h a (List.mem_cons_self _ _)]
      rw [show JSNum.max2 JSNum.ninf JSNum.ninf = JSNum.ninf from rfl]
      exact ih (fun x hx => h x (List.mem_cons_of_mem _ hx))

/-- The `Number(x) || default` idiom never produces the JS number 0 when
the default is not 0: a falsy coercion (0 or NaN) is replaced by the
default, and a truthy one is a nonzero number. -/
theorem orElse_default_ne_zero (x d : JSNum) (hd : d ≠ JSNum.fin 0) :
    x.orElse d ≠ JSNum.fin 0 := by
  unfold JSNum.orElse
  by_cases h : x.falsy = true
  · rw [if_pos h]
    exact hd
  · rw [if_neg h]
    intro heq
    apply h
    rw [heq]
    simp [JSNum.falsy]

/-- C10: under min (respectively max) aggregation with a resolved measure
field, a record whose measure value coerces to 0 or to NaN contributes
Infinity (respectively -Infinity); consequently no group measure ever
equals the JS number 0, and a group all of whose records have such falsy
measure values aggregates to Infinity (respectively -Infinity). -/
theorem aggregate_min_max_falsy_guard :
    (∀ v : JSValue, (toNumber v).falsy = true →
      (toNumber v).orElse JSNum.inf = JSNum.inf ∧
      (toNumber v).orElse JSNum.ninf = JSNum.ninf) ∧
    (∀ calls schema view mid, view.measureField = some mid →
      (findField schema mid).isSome = true →
      view.aggregation = Aggregation.min →
      ∀ r ∈ aggregateByDimension calls schema view,
        r.measure ≠ JSNum.fin 0 ∧
        ((∀ c ∈ calls, dimensionKey view c = r.dimension →
            (toNumber (metaGet c.metadata mid)).falsy = true) →
          r.measure = JSNum.inf)) ∧
    (∀ calls schema view mid, view.measureField = some mid →
      (findField schema mid).isSome = true →
      view.aggregation = Aggregation.max →
      ∀ r ∈ aggregateByDimension calls schema view,
        r.measure ≠ JSNum.fin 0 ∧
        ((∀ c ∈ calls, dimensionKey view c = r.dimension →
            (toNumber (metaGet c.metadata mid)).falsy = true) →
          r.measure = JSNum.ninf)) := by
  refine ⟨?_, ?_, ?_⟩
  · intro v hv
    constructor
    · unfold JSNum.orElse
      rw [if_pos hv]
    · unfold JSNum.orElse
      rw [if_pos hv]
  · intro calls schema view mid hmf hres hagg r hr
    unfold aggregateByDimension at hr
    cases hdim : findField schema view.dimensionField with
    | none => rw [hdim] at hr; cases hr
    | some df =>
        rw [hdim] at hr
        simp only [List.mem_insertionSort] at hr
        obtain ⟨p, hp, rfl⟩ := List.mem_map.mp hr
        have hmeas : (match view.measureField with
            | some mfId =>
                if (findField schema mfId).isSome then aggMeasure view.aggregation mfId p.2
                else JSNum.fin p.2.length
            | none => JSNum.fin p.2.length)
          = (p.2.map (fun c => (measureNumber mid c).orElse JSNum.inf)).foldl
              JSNum.min2 JSNum.inf := by
          rw [hmf]
          show (if (findField schema mid).isSome then aggMeasure view.aggregation mid p.2
            else JSNum.fin p.2.length) = _
          rw [if_pos hres, hagg]
          rfl
        constructor
        · show (match view.measureField with
              | some mfId =>
                  if (findField schema mfId).isSome then aggMeasure view.aggregation mfId p.2
                  else JSNum.fin p.2.length
              | none => JSNum.fin p.2.length) ≠ JSNum.fin 0
          rw [hmeas]
          rcases foldl_min2_mem (p.2.map (fun c => (measureNumber mid c).orElse JSNum.inf))
              JSNum.inf with h | h | h
          · rw [h]
            intro hcon
            cases hcon
          · rw [h]
            intro hcon
            cases hcon
          · obtain ⟨c, _, hceq⟩ := List.mem_map.mp h
            rw [← hceq]
            exact orElse_default_ne_zero _ _ (by intro hcon; cases hcon)
        · intro hall
          show (match view.measureField with
              | some mfId =>
                  if (findField schema mfId).isSome then aggMeasure view.aggregation mfId p.2
                  else JSNum.fin p.2.length
              | none => JSNum.fin p.2.length) = JSNum.inf
          rw [hmeas]
          apply foldl_min2_inf
          intro x hx
          obtain ⟨c, hc, rfl⟩ := List.mem_map.mp hx
          have hwf := (groupByKey_wf (dimensionKey view) calls p hp).2 c hc
          have hfalsy := hall c hwf.2 hwf.1
          unfold measureNumber JSNum.orElse
          rw [if_pos hfalsy]
  · intro calls schema view mid hmf hres hagg r hr
    unfold aggregateByDimension at hr
    cases hdim : findField schema view.dimensionField with
    | none => rw [hdim] at hr; cases hr
    | some df =>
        rw [hdim] at hr
        simp only [List.mem_insertionSort] at hr
        obtain ⟨p, hp, rfl⟩ := List.mem_map.mp hr
        have hmeas : (match view.measureField with
            | some mfId =>
                if (findField schema mfId).isSome then aggMeasure view.aggregation mfId p.2
                else JSNum.fin p.2.length
            | none => JSNum.fin p.2.length)
          = (p.2.map (fun c => (measureNumber mid c).orElse JSNum.ninf)).foldl
              JSNum.max2 JSNum.ninf := by
          rw [hmf]
          show (if (findField schema mid).isSome then aggMeasure view.aggregation mid p.2
            else JSNum.fin p.2.length) = _
          rw [if_pos hres, hagg]
          rfl
        constructor
        · show (match view.measureField with
              | some mfId =>
                  if (findField schema mfId).isSome then aggMeasure view.aggregation mfId p.2
                  else JSNum.fin p.2.length
              | none => JSNum.fin p.2.length) ≠ JSNum.fin 0
          rw [hmeas]
          rcases foldl_max2_mem (p.2.map (fun c => (measureNumber mid c).orElse JSNum.ninf))
              JSNum.ninf with h | h | h
          · rw [h]
            intro hcon
            cases hcon
          · rw [h]
            intro hcon
            cases hcon
          · obtain ⟨c, _, hceq⟩ := List.mem_map.mp h
            rw [← hceq]
            exact orElse_default_ne_zero _ _ (by intro hcon; cases hcon)
        · intro hall
          show (match view.measureField with
              | some mfId =>
                  if (findField schema mfId).isSome then aggMeasure view.aggregation mfId p.2
                  else JSNum.fin p.2.length
              | none => JSNum.fin p.2.length) = JSNum.ninf
          rw [hmeas]
          apply foldl_max2_ninf
          intro x hx
          obtain ⟨c, hc, rfl⟩ := List.mem_map.mp hx
          have hwf := (groupByKey_wf (dimensionKey view) calls p hp).2 c hc
          have hfalsy := hall c hwf.2 hwf.1
          unfold measureNumber JSNum.orElse
          rw [if_pos hfalsy]

/-- Concrete evaluation: a group whose two records have measure 0 and a
non-numeric measure aggregates to Infinity under min and to -Infinity
under max. -/
theorem aggregate_falsy_group_eval :
    aggregateByDimension [callMZero, callMBad] exSchema exViewMin
      = [⟨"A", JSNum.inf, 2, 100⟩] ∧
    aggregateByDimension [callMZero, callMBad] exSchema exViewMax
      = [⟨"A", JSNum.ninf, 2, 100⟩] := by
  have hmin : aggregateByDimension [callMZero, callMBad] exSchema exViewMin
      = [⟨"A", JSNum.inf, 2,
          if 0 < ([callMZero, callMBad] : List CallRecord).length
          then (((2 : ℕ) : ℚ) / (([callMZero, callMBad] : List CallRecord).length : ℚ)) * 100
          else 0⟩] := rfl
  have hmax : aggregateByDimension [callMZero, callMBad] exSchema exViewMax
      = [⟨"A", JSNum.ninf, 2,
          if 0 < ([callMZero, callMBad] : List CallRecord).length
          then (((2 : ℕ) : ℚ) / (([callMZero, callMBad] : List CallRecord).length : ℚ)) * 100
          else 0⟩] := rfl
  rw [hmin, hmax]
  norm_num

/-- C10 witness: the min/max falsy-guard law instantiated on the concrete
group of one zero-measure and one non-numeric-measure record. -/
theorem aggregate_min_max_falsy_guard_witness :
    ((⟨"A", JSNum.inf, 2, 100⟩ : GenericAnalyticResult).measure ≠ JSNum.fin 0 ∧
      (⟨"A", JSNum.inf, 2, 100⟩ : GenericAnalyticResult).measure = JSNum.inf) ∧
    ((⟨"A", JSNum.ninf, 2, 100⟩ : GenericAnalyticResult).measure ≠ JSNum.fin 0 ∧
      (⟨"A", JSNum.ninf, 2, 100⟩ : GenericAnalyticResult).measure = JSNum.ninf) := by
  have hfalsy : ∀ c ∈ ([callMZero, callMBad] : List CallRecord),
      (toNumber (metaGet c.metadata "m")).falsy = true := by
    intro c hc
    simp only [List.mem_cons, List.not_mem_nil, or_false] at hc
    rcases hc with rfl | rfl
    · simp [callMZero, metaGet, toNumber, JSNum.falsy]
    · simp [callMBad, metaGet, toNumber, JSNum.falsy, strToNumber, parseDecimal, allDigits]
  have hminmem : (⟨"A", JSNum.inf, 2, 100⟩ : GenericAnalyticResult)
      ∈ aggregateByDimension [callMZero, callMBad] exSchema exViewMin := by
    rw [aggregate_falsy_group_eval.1]
    exact List.mem_cons_self _ _
  have hmaxmem : (⟨"A", JSNum.ninf, 2, 100⟩ : GenericAnalyticResult)
      ∈ aggregateByDimension [callMZero, callMBad] exSchema exViewMax := by
    rw [aggregate_falsy_group_eval.2]
    exact List.mem_cons_self _ _
  have hmin := aggregate_min_max_falsy_guard.2.1 [callMZero, callMBad] exSchema exViewMin
    "m" rfl (by decide) rfl _ hminmem
  have hmax := aggregate_min_max_falsy_guard.2.2 [callMZero, callMBad] exSchema exViewMax
    "m" rfl (by decide) rfl _ hmaxmem
  exact ⟨⟨hmin.1, hmin.2 (fun c hc _ => hfalsy c hc)⟩,
    ⟨hmax.1, hmax.2 (fun c hc _ => hfalsy c hc)⟩⟩
